import Mathlib

/-!
Verification of the `env` package (an environment-variable analogue of a
command-line flag parser) against its natural-language specification.

The development shallowly embeds `src/env.go` together with the standard
library routines it calls (`strconv.ParseBool` / `ParseInt` / `ParseUint`,
`time.ParseDuration`, `time.Duration.String`).  Strings are processed as
`List Char`; machine integers are `Nat` / `Int` with explicit bounds where
the Go code checks them.
-/

set_option maxRecDepth 4000
set_option linter.unusedVariables false

namespace EnvModel

/-- Go `lower` from strconv: lowercases an ASCII letter by `c | 0x20`, computed
on the numeric value of the character. -/
def lowerNat (n : Nat) : Nat := n ||| 0x20

/-- Digit value of one character in the `strconv.ParseUint` loop: ASCII digits
give `c - '0'`, letters give `lower(c) - 'a' + 10`, anything else is a syntax
error (`none`). -/
def digitVal (c : Char) : Option Nat :=
  if 48 ≤ c.toNat ∧ c.toNat ≤ 57 then some (c.toNat - 48)
  else if 97 ≤ lowerNat c.toNat ∧ lowerNat c.toNat ≤ 122 then
    some (lowerNat c.toNat - 97 + 10)
  else none

/-- Error classification of `strconv`: `ErrSyntax` or `ErrRange` inside a
`*strconv.NumError`. -/
inductive NumErr where
  | syn
  | range
deriving DecidableEq, Repr

/-- Digit-accumulation loop of `strconv.ParseUint` at base-0 call sites (the
only ones `env.go` uses), returning the Go pair (value, error) plus the
`underscores` flag.  Following the source: a non-digit gives `(0, ErrSyntax)`;
once the accumulator reaches `cutoff`, or the next value exceeds `maxVal`, the
loop stops with `(maxVal, ErrRange)` (the source's pair of checks `n1 < n`
and `n1 > maxVal` collapses to the single `maxVal < n1` over `Nat`). -/
def parseUintLoop (base maxVal cutoff : Nat) :
    List Char → Nat → Bool → Nat × Option NumErr × Bool
  | [], n, us => (n, none, us)
  | c :: cs, n, us =>
    if c = '_' then parseUintLoop base maxVal cutoff cs n true
    else
      match digitVal c with
      | none => (0, some .syn, us)
      | some d =>
        if base ≤ d then (0, some .syn, us)
        else if cutoff ≤ n then (maxVal, some .range, us)
        else
          let n1 := n * base + d
          if maxVal < n1 then (maxVal, some .range, us)
          else parseUintLoop base maxVal cutoff cs n1 us

/-- Inner state machine of `strconv`'s `underscoreOK`: `saw` is `0` at the
beginning of the number, `1` after a digit (or base marker), `2` after an
underscore, `3` after any other character. -/
def underscoreLoop (hex : Bool) : List Char → Nat → Bool
  | [], saw => saw ≠ 2
  | c :: cs, saw =>
    if (48 ≤ c.toNat ∧ c.toNat ≤ 57) ∨
        (hex ∧ 97 ≤ lowerNat c.toNat ∧ lowerNat c.toNat ≤ 102) then
      underscoreLoop hex cs 1
    else if c = '_' then
      if saw ≠ 1 then false else underscoreLoop hex cs 2
    else if saw = 2 then false
    else underscoreLoop hex cs 3

/-- Optional-sign skip of `underscoreOK`. -/
def usSkipSign (s : List Char) : List Char :=
  match s with
  | c :: cs => if c = '-' ∨ c = '+' then cs else c :: cs
  | [] => []

/-- Optional base-marker handling of `underscoreOK`: the hex flag, the
remaining characters, and the initial `saw` state (1 after a marker, since a
base marker counts as a digit for separation purposes; 0 otherwise). -/
def usAfterSign (s1 : List Char) : Bool × List Char × Nat :=
  match s1 with
  | c0 :: c1 :: rest =>
    if c0 = '0' ∧ (lowerNat c1.toNat = 98 ∨ lowerNat c1.toNat = 111 ∨
        lowerNat c1.toNat = 120) then
      (lowerNat c1.toNat = 120, rest, 1)
    else (false, c0 :: c1 :: rest, 0)
  | _ => (false, s1, 0)

/-- Model of `strconv`'s `underscoreOK`: underscores may appear only between
digits or between a base marker and a digit.  An optional sign is skipped, a
`0b` / `0o` / `0x` marker counts as a digit and enables hex digits for `0x`. -/
def underscoreOK (s : List Char) : Bool :=
  let t := usAfterSign (usSkipSign s)
  underscoreLoop t.1 t.2.1 t.2.2

/-- Base detection of `strconv.ParseUint` with base argument 0: `0b`/`0o`/`0x`
markers (requiring at least one further character) select 2/8/16, a bare
leading `0` selects 8, anything else is decimal.  Returns the base and the
remaining characters. -/
def baseDetect (s : List Char) : Nat × List Char :=
  match s with
  | '0' :: c1 :: rest =>
    if rest ≠ [] ∧ lowerNat c1.toNat = 98 then (2, rest)
    else if rest ≠ [] ∧ lowerNat c1.toNat = 111 then (8, rest)
    else if rest ≠ [] ∧ lowerNat c1.toNat = 120 then (16, rest)
    else (8, c1 :: rest)
  | ['0'] => (8, [])
  | _ => (10, s)

/-- Model of `strconv.ParseUint(s, 0, bitSize)` as the Go pair
(value, error).  The empty string is a syntax error; after the digit loop the
`underscores && !underscoreOK(s0)` post-check applies on the success path. -/
def parseUintGo (bitSize : Nat) (s : List Char) : Nat × Option NumErr :=
  if s = [] then (0, some .syn)
  else
    let maxUint64 : Nat := 2 ^ 64 - 1
    let pr := baseDetect s
    let cutoff := maxUint64 / pr.1 + 1
    let maxVal := 2 ^ bitSize - 1
    match parseUintLoop pr.1 maxVal cutoff pr.2 0 false with
    | (n, none, us) => if us ∧ ¬ underscoreOK s then (0, some .syn) else (n, none)
    | (n, some e, _) => (n, some e)

/-- Sign stripping of `strconv.ParseInt` ("Pick off leading sign"). -/
def stripSign (s : List Char) : Bool × List Char :=
  match s with
  | '+' :: cs => (false, cs)
  | '-' :: cs => (true, cs)
  | _ => (false, s)

/-- Model of `strconv.ParseInt(s, 0, bitSize)` as the Go pair (value, error):
strip an optional sign, convert the rest through `ParseUint(_, 0, 64)`
(a syntax error there returns `(0, ErrSyntax)`, a range error falls through
with the clamped 64-bit value), then clamp to `[-2^(bitSize-1),
2^(bitSize-1)-1]`, reporting `ErrRange` with the nearest bound. -/
def parseIntGo (bitSize : Nat) (s : List Char) : Int × Option NumErr :=
  if s = [] then (0, some .syn)
  else
    let p := stripSign s
    let neg := p.1
    let q := parseUintGo 64 p.2
    match q.2 with
    | some .syn => (0, some .syn)
    | _ =>
      let un := q.1
      let cutoff : Nat := 2 ^ (bitSize - 1)
      if ¬ neg ∧ cutoff ≤ un then ((cutoff : Int) - 1, some .range)
      else if neg ∧ cutoff < un then (-(cutoff : Int), some .range)
      else (if neg then -(un : Int) else (un : Int), none)

/-- Model of `strconv.ParseBool` as the Go pair (value, error): the twelve
canonical literals are accepted, anything else returns `(false, ErrSyntax)`. -/
def parseBoolGo (s : String) : Bool × Option NumErr :=
  match s with
  | "1" | "t" | "T" | "true" | "TRUE" | "True" => (true, none)
  | "0" | "f" | "F" | "false" | "FALSE" | "False" => (false, none)
  | _ => (false, some .syn)

/-- Model of `strconv.FormatBool`. -/
def formatBool (b : Bool) : String := if b then "true" else "false"

/-- Fuelled core of the decimal digit rendering: the fuel only bounds the
recursion depth (division by ten terminates far within `n` steps) so that
the definition is structural and evaluates in the kernel. -/
def natDigitsAuxF : Nat → Nat → List Char → List Char
  | 0, _, acc => acc
  | fuel + 1, n, acc =>
    if n = 0 then acc
    else natDigitsAuxF fuel (n / 10) (Char.ofNat (48 + n % 10) :: acc)

/-- Decimal digit characters of a positive number, most significant first,
accumulated from the least significant end (shared core of `strconv`'s
decimal formatting and `time`'s `fmtInt`). -/
def natDigitsAux (n : Nat) (acc : List Char) : List Char :=
  natDigitsAuxF n n acc

/-- Model of the decimal rendering shared by `strconv.Itoa`,
`strconv.FormatInt(_, 10)` and `strconv.FormatUint(_, 10)` on the
non-negative part: plain decimal digits, `"0"` for zero. -/
def formatUintDec (n : Nat) : List Char :=
  if n = 0 then ['0'] else natDigitsAux n []

/-- Model of `strconv.FormatInt(_, 10)` / `strconv.Itoa`: a `-` sign followed
by the decimal digits of the absolute value. -/
def formatIntDec (n : Int) : List Char :=
  if n < 0 then '-' :: formatUintDec n.natAbs else formatUintDec n.toNat

/-! ### time.ParseDuration and time.Duration.String -/

/-- One nanosecond-count second, `time.Second`. -/
def second : Nat := 1000000000

/-- Loop of `time`'s `leadingInt`: consume leading decimal digits into an
accumulator; exceeding `1<<63` is an overflow error (`none`). -/
def leadingIntLoop : List Char → Nat → Option (Nat × List Char)
  | [], x => some (x, [])
  | c :: cs, x =>
    if c.toNat < 48 ∨ 57 < c.toNat then some (x, c :: cs)
    else if 2 ^ 63 / 10 < x then none
    else
      let x1 := x * 10 + (c.toNat - 48)
      if 2 ^ 63 < x1 then none
      else leadingIntLoop cs x1

/-- Model of `time`'s `leadingInt`. -/
def leadingInt (s : List Char) : Option (Nat × List Char) := leadingIntLoop s 0

/-- Loop of `time`'s `leadingFraction`: like `leadingInt` but instead of an
overflow error it stops accumulating further digits while still consuming
them.  The scale (a power of ten held in a `float64` by the source, exact for
every power reachable here) is returned as a `Nat`. -/
def leadingFractionLoop : List Char → Nat → Nat → Bool → Nat × Nat × List Char
  | [], x, scale, _ => (x, scale, [])
  | c :: cs, x, scale, overflow =>
    if c.toNat < 48 ∨ 57 < c.toNat then (x, scale, c :: cs)
    else if overflow then leadingFractionLoop cs x scale true
    else if (2 ^ 63 - 1) / 10 < x then leadingFractionLoop cs x scale true
    else
      let y := x * 10 + (c.toNat - 48)
      if 2 ^ 63 < y then leadingFractionLoop cs x scale true
      else leadingFractionLoop cs y (scale * 10) false

/-- Model of `time`'s `leadingFraction`. -/
def leadingFraction (s : List Char) : Nat × Nat × List Char :=
  leadingFractionLoop s 0 1 false

/-- The unit table of `time.ParseDuration` (`unitMap`). -/
def unitValue : List Char → Option Nat
  | ['n', 's'] => some 1
  | ['u', 's'] => some 1000
  | ['µ', 's'] => some 1000
  | ['μ', 's'] => some 1000
  | ['m', 's'] => some 1000000
  | ['s'] => some 1000000000
  | ['m'] => some 60000000000
  | ['h'] => some 3600000000000
  | _ => none

/-- Unit-name consumption of `time.ParseDuration`: take characters up to the
next digit or decimal point. -/
def spanUnit : List Char → List Char × List Char
  | [] => ([], [])
  | c :: cs =>
    if c = '.' ∨ (48 ≤ c.toNat ∧ c.toNat ≤ 57) then ([], c :: cs)
    else
      let p := spanUnit cs
      (c :: p.1, p.2)

/-- Optional-fraction consumption of `time.ParseDuration` (`(\.[0-9]*)?`):
given the text after the integer part, return the fraction value, the scale,
the remaining text, and the `post` flag (whether fraction digits were
consumed). -/
def durFraction : List Char → Nat × Nat × List Char × Bool
  | '.' :: s1t =>
    let lf := leadingFraction s1t
    (lf.1, lf.2.1, lf.2.2, decide (lf.2.2.length ≠ s1t.length))
  | s1 => (0, 1, s1, false)

/-- Overflow guard ending one round of the `time.ParseDuration` loop: the
chunk value must not exceed `1<<63`. -/
def durChunkFinish (v2 : Nat) (s3 : List Char) : Option (Nat × List Char) :=
  if 2 ^ 63 < v2 then none else some (v2, s3)

/-- One round of the `time.ParseDuration` loop: parse
`[0-9]*(\.[0-9]*)?unit` from the front, returning its nanosecond value and
the remaining text.  The source adds the fractional contribution as
`uint64(float64(f) * (float64(unit) / scale))`; the model uses the exact
`f * unit / scale`, which coincides on every rendering `Duration.String`
produces (there `scale` divides `f * unit` and both computations are exact
in `float64`). -/
def durChunk (s : List Char) : Option (Nat × List Char) :=
  match s with
  | [] => none
  | c :: cs =>
    if ¬ (c = '.' ∨ (48 ≤ c.toNat ∧ c.toNat ≤ 57)) then none
    else
      match leadingInt (c :: cs) with
      | none => none
      | some (v, s1) =>
        if ¬ decide (s1.length ≠ (c :: cs).length) ∧ ¬ (durFraction s1).2.2.2 then
          none
        else
          match spanUnit (durFraction s1).2.2.1 with
          | ([], _) => none
          | (u :: us, s3) =>
            match unitValue (u :: us) with
            | none => none
            | some unit =>
              if 2 ^ 63 / unit < v then none
              else
                durChunkFinish
                  (if 0 < (durFraction s1).1 then
                    v * unit + (durFraction s1).1 * unit / (durFraction s1).2.1
                  else v * unit) s3

/-- Fuelled main loop of `time.ParseDuration`: repeat `durChunk` over the
remaining text, accumulating the nanosecond total and erroring past `1<<63`.
The fuel only bounds the recursion depth (each chunk consumes at least one
character, by `durChunk_rem_lt`), keeping the definition structural so that
it evaluates in the kernel. -/
def parseDurationLoopF : Nat → List Char → Nat → Option Nat
  | _, [], d => some d
  | 0, _ :: _, _ => none
  | fuel + 1, c :: cs, d =>
    match durChunk (c :: cs) with
    | none => none
    | some (v2, s3) =>
      if 2 ^ 63 < d + v2 then none
      else parseDurationLoopF fuel s3 (d + v2)

/-- Main loop of `time.ParseDuration`, with the fuel instantiated to the
text length (always sufficient). -/
def parseDurationLoop (s : List Char) (d : Nat) : Option Nat :=
  parseDurationLoopF s.length s d

/-- The optional leading sign of `time.ParseDuration`. -/
def durStripSign : List Char → Bool × List Char
  | '-' :: cs => (true, cs)
  | '+' :: cs => (false, cs)
  | s => (false, s)

/-- Model of `time.ParseDuration`, collapsed to `Option` (the caller in
`env.go` discards the error detail): optional sign, the special case `"0"`,
then the chunk loop; a non-negative total above `1<<63 - 1` is an error,
a negative one is negated (so `-1<<63` is representable). -/
def parseDurationGo (s : List Char) : Option Int :=
  let p := durStripSign s
  let neg := p.1
  let s1 := p.2
  if s1 = ['0'] then some 0
  else if s1 = [] then none
  else
    match parseDurationLoop s1 0 with
    | none => none
    | some d =>
      if neg then some (-(d : Int))
      else if 2 ^ 63 - 1 < d then none
      else some (d : Int)

/-- Loop of `time`'s `fmtFrac`: digits are produced least-significant first
and prepended to the accumulator once a nonzero digit has been seen (the
`print` flag), so trailing zeros are omitted. -/
def fmtFracLoop : Nat → Nat → Bool → List Char → List Char × Nat × Bool
  | v, 0, print, acc => (acc, v, print)
  | v, p + 1, print, acc =>
    let digit := v % 10
    let print1 := print || decide (digit ≠ 0)
    let acc1 := if print1 then Char.ofNat (48 + digit) :: acc else acc
    fmtFracLoop (v / 10) p print1 acc1

/-- Model of `time`'s `fmtFrac`: the fractional text (with its decimal point,
empty when the fraction is zero) and the remaining integer part `v / 10^prec`. -/
def fmtFrac (v : Nat) (prec : Nat) : List Char × Nat :=
  let r := fmtFracLoop v prec false []
  (if r.2.2 then '.' :: r.1 else r.1, r.2.1)

/-- Model of `time`'s `fmtInt`: plain decimal digits, `"0"` for zero. -/
def fmtInt (v : Nat) : List Char := formatUintDec v

/-- Unsigned body of `time.Duration.String`, written left-to-right rather
than through the right-to-left buffer of the source: either a sub-second form
`Nns` / `N.Fµs` / `N.Fms` (fraction precision 0, 3, 6) or `[Hh][Mm]S.Fs`
(precision 9; the minutes group appears whenever the duration reaches one
minute, the hours group whenever it reaches one hour), with `0s` for zero. -/
def durationBodyGo (u : Nat) : List Char :=
  if u < second then
    if u = 0 then ['0', 's']
    else if u < 1000 then fmtInt u ++ ['n', 's']
    else if u < 1000000 then
      let fr := fmtFrac u 3
      fmtInt fr.2 ++ fr.1 ++ ['µ', 's']
    else
      let fr := fmtFrac u 6
      fmtInt fr.2 ++ fr.1 ++ ['m', 's']
  else
    let fr := fmtFrac u 9
    let v := fr.2
    let secs := fmtInt (v % 60) ++ fr.1 ++ ['s']
    if v / 60 = 0 then secs
    else
      let withMin := fmtInt (v / 60 % 60) ++ 'm' :: secs
      if v / 3600 = 0 then withMin
      else fmtInt (v / 3600) ++ 'h' :: withMin

/-- Model of `time.Duration.String`, assembled from `durationBodyGo` and the
sign (the source emits `"0s"` before reaching the sign logic, and a zero
duration is never negative). -/
def durationStringGo (d : Int) : String :=
  String.mk (if d < 0 then '-' :: durationBodyGo d.natAbs
    else durationBodyGo d.natAbs)

/-! ### The Value variants of env.go -/

/-- Error classification for `Value.Set` results: the sentinels `errParse`
and `errRange`, or any other error carrying its message (from a
caller-supplied callback or unmarshaler). -/
inductive SetError where
  | parse
  | range
  | custom (msg : String)
deriving DecidableEq, Repr

/-- Model of `numError`: a `*strconv.NumError` holding `ErrSyntax` maps to
`errParse`, one holding `ErrRange` maps to `errRange`. -/
def numErrorKind : NumErr → SetError
  | .syn => .parse
  | .range => .range

/-- Error text of a `SetError` as the `%v` rendering of the underlying Go
error (`errParse` prints `parse error`, `errRange` prints
`value out of range`). -/
def setErrText : SetError → String
  | .parse => "parse error"
  | .range => "value out of range"
  | .custom msg => msg

/-- Model of `strconv.IntSize` for the 64-bit platforms the package targets
(`int` / `uint` are 64 bits wide there). -/
def intSize : Nat := 64

/-- Model of `boolValue.Set`: `*b` is assigned `ParseBool`'s result even on
failure (`false` then), and any error collapses to `errParse`. -/
def boolValueSet (s : String) (cell : Bool) : Bool × Option SetError :=
  match parseBoolGo s with
  | (v, none) => (v, none)
  | (v, some _) => (v, some .parse)

/-- Model of `boolValue.String` (`strconv.FormatBool`). -/
def boolValueString (b : Bool) : String := formatBool b

/-- Model of `boolValue.IsBoolVar`, the marker method of the `boolVar`
interface. -/
def boolValueIsBoolVar : Bool := true

/-- Model of `intValue.Set`: `strconv.ParseInt(s, 0, strconv.IntSize)`
classified through `numError`; `*b` is assigned the returned value even on
failure (0 on a syntax error, the clamped bound on a range error). -/
def intValueSet (s : String) (cell : Int) : Int × Option SetError :=
  let p := parseIntGo intSize s.data
  (p.1, p.2.map numErrorKind)

/-- Model of `int64Value.Set` (`strconv.ParseInt(s, 0, 64)`). -/
def int64ValueSet (s : String) (cell : Int) : Int × Option SetError :=
  let p := parseIntGo 64 s.data
  (p.1, p.2.map numErrorKind)

/-- Model of `uintValue.Set` (`strconv.ParseUint(s, 0, strconv.IntSize)`). -/
def uintValueSet (s : String) (cell : Nat) : Nat × Option SetError :=
  let p := parseUintGo intSize s.data
  (p.1, p.2.map numErrorKind)

/-- Model of `uint64Value.Set` (`strconv.ParseUint(s, 0, 64)`). -/
def uint64ValueSet (s : String) (cell : Nat) : Nat × Option SetError :=
  let p := parseUintGo 64 s.data
  (p.1, p.2.map numErrorKind)

/-- Model of `stringValue.Set`: any text is stored verbatim. -/
def stringValueSet (val : String) (cell : String) : String × Option SetError :=
  (val, none)

/-- Model of `float64Value.Set`, parametric in the outcome of
`strconv.ParseFloat(s, 64)` (the pair value/error): on an error the function
returns `numError(err)` without writing, otherwise it stores the parsed
value. -/
def float64ValueSet {α : Type} (parsed : α × Option NumErr) (cell : α) :
    α × Option SetError :=
  match parsed with
  | (_, some e) => (cell, some (numErrorKind e))
  | (v, none) => (v, none)

/-- Model of `durationValue.Set`: a `time.ParseDuration` failure returns
`errParse` without writing; otherwise the parsed value is stored. -/
def durationValueSet (s : String) (cell : Int) : Int × Option SetError :=
  match parseDurationGo s.data with
  | none => (cell, some .parse)
  | some v => (v, none)

/-- Caller-supplied `encoding.TextUnmarshaler` / `TextMarshaler` pair behind
a `textValue`, with the caller's storage coded as a `String`.  `unmarshal`
returns the new stored state plus an optional error (a Go `UnmarshalText`
may mutate its receiver even when it fails); `marshal` is absent when the
stored type does not implement `TextMarshaler` and returns `none` when
`MarshalText` errors. -/
structure TextCallbacks where
  unmarshal : String → String → String × Option String
  marshal : Option (String → Option String)

/-- Model of `textValue.Set`: delegate to the caller's `UnmarshalText`. -/
def textValueSet (cb : TextCallbacks) (s : String) (st : String) :
    String × Option SetError :=
  match cb.unmarshal s st with
  | (st1, none) => (st1, none)
  | (st1, some msg) => (st1, some (.custom msg))

/-- Model of `textValue.String`: `MarshalText` when available and successful,
the empty string otherwise. -/
def textValueString (cb : TextCallbacks) (st : String) : String :=
  match cb.marshal with
  | none => ""
  | some m => (m st).getD ""

/-- Model of `funcValue.Set` / `boolFuncValue.Set`: invoke the caller's
callback and return its error. -/
def funcValueSet (f : String → Option String) (s : String) : Option SetError :=
  (f s).map .custom

/-- Closed model of the `Value` implementations declared in `env.go`, each
constructor carrying its current storage cell.  `float64Value` is modelled
separately (`float64ValueSet` is parametric in the `ParseFloat` outcome) and
is not registered here. -/
inductive Val where
  | bool (b : Bool)
  | int (n : Int)
  | int64 (n : Int)
  | uint (n : Nat)
  | uint64 (n : Nat)
  | str (s : String)
  | duration (n : Int)
  | text (state : String) (cb : TextCallbacks)
  | func (f : String → Option String)
  | boolFunc (f : String → Option String)

/-- Dynamic dispatch of `Value.Set` over the declared variants. -/
def valSet (v : Val) (s : String) : Val × Option SetError :=
  match v with
  | .bool b =>
    let p := boolValueSet s b
    (.bool p.1, p.2)
  | .int n =>
    let p := intValueSet s n
    (.int p.1, p.2)
  | .int64 n =>
    let p := int64ValueSet s n
    (.int64 p.1, p.2)
  | .uint n =>
    let p := uintValueSet s n
    (.uint p.1, p.2)
  | .uint64 n =>
    let p := uint64ValueSet s n
    (.uint64 p.1, p.2)
  | .str v0 =>
    let p := stringValueSet s v0
    (.str p.1, p.2)
  | .duration n =>
    let p := durationValueSet s n
    (.duration p.1, p.2)
  | .text st cb =>
    let p := textValueSet cb s st
    (.text p.1 cb, p.2)
  | .func f => (.func f, funcValueSet f s)
  | .boolFunc f => (.boolFunc f, funcValueSet f s)

/-- Dynamic dispatch of `Value.String` over the declared variants
(`funcValue.String` and `boolFuncValue.String` are constantly empty). -/
def valString : Val → String
  | .bool b => boolValueString b
  | .int n => String.mk (formatIntDec n)
  | .int64 n => String.mk (formatIntDec n)
  | .uint n => String.mk (formatUintDec n)
  | .uint64 n => String.mk (formatUintDec n)
  | .str s => s
  | .duration n => durationStringGo n
  | .text st cb => textValueString cb st
  | .func _ => ""
  | .boolFunc _ => ""

/-- Model of the zero-value construction in `isZeroValue`
(`reflect.New(typ.Elem())` for the pointer-receiver kinds, `reflect.Zero`
for `textValue` and the func kinds): a freshly zeroed storage cell of the
same concrete kind.  The zero `textValue` holds a nil interface, so it has
no marshaler; the zero func value is never invoked by `String`. -/
def zeroVal : Val → Val
  | .bool _ => .bool false
  | .int _ => .int 0
  | .int64 _ => .int64 0
  | .uint _ => .uint 0
  | .uint64 _ => .uint64 0
  | .str _ => .str ""
  | .duration _ => .duration 0
  | .text _ cb => .text "" { unmarshal := cb.unmarshal, marshal := none }
  | .func f => .func f
  | .boolFunc f => .boolFunc f

/-! ### The EnvSet registry and its parser -/

/-- Model of the `ErrorHandling` enumeration. -/
inductive ErrorHandling where
  | continueOnError
  | exitOnError
  | panicOnError
deriving DecidableEq, Repr

/-- Errors produced by a parse step: the `ErrHelp` sentinel, or the
`errors.New(msg)` value built by `failf` (which carries only its message). -/
inductive ParseError where
  | help
  | failure (msg : String)
deriving DecidableEq, Repr

/-- Model of a `Spec`: the registry's record for one declared variable. -/
structure Spec where
  name : String
  description : String
  value : Val
  defValue : String

/-- Model of an `EnvSet`.  Go's `formal` and `actual` maps are an association
list (declaration order; `formal` keys are unique by construction) and the
list of observed names: `actual` holds pointers to the same `Spec` objects as
`formal`, so the model keeps each variable's storage in `formal` only and
tracks `actual` by name.  The transient `environment` slice that `parseOne`
pops from is the list argument of `run`.  `output` collects the text written
to the output sink; `usageOverride` models an assigned `Usage` callback by
the text it would print (`none` meaning the default renderer). -/
structure EnvSet where
  usageOverride : Option (List String)
  name : String
  parsed : Bool
  actual : List String
  formal : List (String × Spec)
  errorHandling : ErrorHandling
  output : List String
  undef : List (String × String)

/-- Hex digit character (lower case), used by the quote model. -/
def hexDigitChar (n : Nat) : Char :=
  if n < 10 then Char.ofNat (48 + n) else Char.ofNat (97 + n - 10)

/-- Model of `%q` / `strconv.Quote` on one character, restricted to the
escapes exercised here: quote and backslash are backslash-escaped, the named
control escapes are used, remaining control bytes are hex-escaped, and
printable characters pass through (the source additionally escapes
non-printable non-ASCII runes). -/
def quoteChar (c : Char) : List Char :=
  if c = '"' then ['\\', '"']
  else if c = '\\' then ['\\', '\\']
  else if c = Char.ofNat 7 then ['\\', 'a']
  else if c = Char.ofNat 8 then ['\\', 'b']
  else if c = Char.ofNat 12 then ['\\', 'f']
  else if c = '\n' then ['\\', 'n']
  else if c = '\r' then ['\\', 'r']
  else if c = '\t' then ['\\', 't']
  else if c = Char.ofNat 11 then ['\\', 'v']
  else if c.toNat < 32 ∨ c.toNat = 127 then
    ['\\', 'x', hexDigitChar (c.toNat / 16), hexDigitChar (c.toNat % 16)]
  else [c]

/-- Model of `%q` / `strconv.Quote` on a string. -/
def goQuote (s : String) : String :=
  String.mk ('"' :: (s.data.map quoteChar).flatten ++ ['"'])

/-- Split a character list at the first occurrence of `c`, when present. -/
def splitAtChar (c : Char) : List Char → Option (List Char × List Char)
  | [] => none
  | x :: xs =>
    if x = c then some ([], xs)
    else (splitAtChar c xs).map fun p => (x :: p.1, p.2)

/-- Model of `strings.Cut(s, "=")`: the text before and after the first `=`
(the whole text and the empty string when there is none). -/
def cutEq (s : String) : String × String :=
  match splitAtChar '=' s.data with
  | none => (s, "")
  | some p => (String.mk p.1, String.mk p.2)

/-- Go map lookup `e.formal[name]` over the association-list model. -/
def lookupFormal (formal : List (String × Spec)) (name : String) : Option Spec :=
  match formal with
  | [] => none
  | (k, v) :: rest => if k = name then some v else lookupFormal rest name

/-- Store a new `Value` state for `name` (the effect of `spec.Value.Set`
writing through the pointer shared by `formal` and `actual`). -/
def updateFormal (formal : List (String × Spec)) (name : String) (v : Val) :
    List (String × Spec) :=
  match formal with
  | [] => []
  | (k, sp) :: rest =>
    if k = name then (k, { sp with value := v }) :: rest
    else (k, sp) :: updateFormal rest name v

/-- Go map-assignment semantics for `e.actual[name] = spec`, tracked by
name: membership-preserving insert. -/
def insertActual (actual : List String) (name : String) : List String :=
  if name ∈ actual then actual else actual ++ [name]

/-- Insert a `Spec` into a name-sorted list (helper of `sortVariables`). -/
def insertSpecSorted (sp : Spec) : List Spec → List Spec
  | [] => [sp]
  | x :: xs =>
    if sp.name ≤ x.name then sp :: x :: xs
    else x :: insertSpecSorted sp xs

/-- Model of `sortVariables`: the declared `Spec`s in lexicographically
sorted name order (an insertion sort; names are unique so stability is
irrelevant). -/
def sortVariables (formal : List (String × Spec)) : List Spec :=
  (formal.map Prod.snd).foldr insertSpecSorted []

/-- Type-name fallback of `UnquoteUsage` (the switch over concrete kinds). -/
def typeGuess : Val → String
  | .bool _ => "boolean"
  | .duration _ => "duration"
  | .int _ => "int"
  | .int64 _ => "int"
  | .str _ => "string"
  | .uint _ => "uint"
  | .uint64 _ => "uint"
  | _ => "value"

/-- Model of `UnquoteUsage`: extract a single back-quoted name from the
description (removing the quotes), or fall back to a fixed guess from the
concrete `Value` kind (`*float64Value` would give `float`; the func, text
and any caller-defined kinds give `value`). -/
def unquoteUsage (spec : Spec) : String × String :=
  let bq := Char.ofNat 96
  match splitAtChar bq spec.description.data with
  | some (before, rest) =>
    match splitAtChar bq rest with
    | some (nm, after) => (String.mk nm, String.mk (before ++ nm ++ after))
    | none => (typeGuess spec.value, spec.description)
  | none => (typeGuess spec.value, spec.description)

/-- Model of `isZeroValue`: render the zero value of the `Spec`'s concrete
`Value` kind (`zeroVal`) and compare with the given text.  The modelled
`String` methods are total, so the panic-recovery path of the source never
fires here. -/
def isZeroValue (spec : Spec) (value : String) : Bool :=
  value = valString (zeroVal spec.value)

/-- Default-value suffix of one `PrintDefaults` line: present only when the
recorded default differs from the zero-value rendering; string-kind defaults
are `%q`-quoted. -/
def defaultSuffix (spec : Spec) : Option String :=
  if isZeroValue spec spec.defValue then none
  else
    some (" (default " ++
      (match spec.value with
       | .str _ => goQuote spec.defValue
       | _ => spec.defValue) ++ ")")

/-- Indentation of the description (`strings.ReplaceAll(usage, "\n",
"\n    \t")`). -/
def indentNl (s : String) : String :=
  String.mk ((s.data.map fun c =>
    if c = '\n' then '\n' :: "    \t".data else [c]).flatten)

/-- One `PrintDefaults` line for a `Spec`: name, optional display type,
indented description and the optional default suffix, plus the newline
appended by `fmt.Fprint`. -/
def defaultsLineFor (spec : Spec) : String :=
  let nu := unquoteUsage spec
  "  " ++ spec.name ++ (if 0 < nu.1.length then "  " ++ nu.1 else "") ++
    "\n    \t" ++ indentNl nu.2 ++ ((defaultSuffix spec).getD "") ++ "\n"

/-- Model of `EnvSet.PrintDefaults`: one line per declared variable in
sorted order (the trailing `isZeroValue` error block is empty because the
modelled `String` methods are total). -/
def printDefaults (e : EnvSet) : List String :=
  (sortVariables e.formal).map defaultsLineFor

/-- Model of `defaultEnvironment`: the header line and the defaults. -/
def defaultEnvironment (e : EnvSet) : List String :=
  (if e.name = "" then "Environment:\n"
   else "Environment of " ++ e.name ++ ":\n") :: printDefaults e

/-- Model of `EnvSet.usage`: the custom `Usage` callback when assigned,
otherwise the default renderer. -/
def usage (e : EnvSet) : List String :=
  match e.usageOverride with
  | none => defaultEnvironment e
  | some out => out

/-- Model of `EnvSet.sprintf`: format, print to the output sink
(`Fprintln` adds a newline) and return the message. -/
def EnvSet.sprintf (e : EnvSet) (msg : String) : EnvSet × String :=
  ({ e with output := e.output ++ [msg ++ "\n"] }, msg)

/-- Model of `EnvSet.failf`: print the formatted error, render usage, and
return the error built from the message. -/
def EnvSet.failf (e : EnvSet) (msg : String) : EnvSet × ParseError :=
  let p := EnvSet.sprintf e msg
  ({ p.1 with output := p.1.output ++ usage p.1 }, .failure p.2)

/-- Outcome of `EnvSet.Var` (`panic` is modelled as a distinguished result
constructor: declaration faults are not returned as errors). -/
inductive VarResult where
  | ok (e : EnvSet)
  | panicked (msg : String) (e : EnvSet)

/-- Model of `EnvSet.Var`: reject names containing `=`, capture the default
rendering, reject redefinitions (and names recorded in `undef`), then insert
into `formal`.  Both rejections are Go panics carrying a message (printed by
`sprintf` first, except for the `undef` fault). -/
def EnvSet.Var (e : EnvSet) (value : Val) (name description : String) :
    VarResult :=
  if name.data.contains '=' then
    let p := EnvSet.sprintf e ("variable " ++ goQuote name ++ " contains =")
    .panicked p.2 p.1
  else
    let v : Spec := ⟨name, description, value, valString value⟩
    if (lookupFormal e.formal name).isSome then
      let msg :=
        if e.name = "" then "variable redefined: " ++ name
        else e.name ++ " variable redefined: " ++ name
      let p := EnvSet.sprintf e msg
      .panicked p.2 p.1
    else
      let pos := ((e.undef.filter fun kv => kv.1 = name).map Prod.snd).headD ""
      if pos ≠ "" then
        .panicked ("variable " ++ name ++ " set at " ++ pos ++
          " before being defined") e
      else
        .ok { e with formal := e.formal ++ [(name, v)] }

/-- Record of one `spec.Value.Set` invocation made by the parser, with the
error it returned (instrumentation of the model; the source has no such
log). -/
structure SetCall where
  name : String
  value : String
  err : Option SetError
deriving DecidableEq, Repr

/-- Model of one `parseOne` step on the entry `s` (the popped head of the
environment list): the new registry state, the error of the step, and the
`Set` invocations it performed. -/
def parseEntry (e : EnvSet) (s : String) : EnvSet × Option ParseError × List SetCall :=
  let nv := cutEq s
  if nv.1 = "HELP" ∨ nv.1 = "H" then
    ({ e with output := e.output ++ usage e }, some .help, [])
  else
    match lookupFormal e.formal nv.1 with
    | none => (e, none, [])
    | some spec =>
      let sv := valSet spec.value nv.2
      let e1 := { e with formal := updateFormal e.formal nv.1 sv.1 }
      match sv.2 with
      | some err =>
        let p := EnvSet.failf e1
          ("invalid value " ++ goQuote nv.2 ++ " for variable " ++ nv.1 ++
            ": " ++ setErrText err)
        (p.1, some p.2, [⟨nv.1, nv.2, some err⟩])
      | none =>
        ({ e1 with actual := insertActual e1.actual nv.1 }, none,
          [⟨nv.1, nv.2, none⟩])

/-- The `parseOne` loop of `EnvSet.Parse`, run until the list is drained or
a step reports an error (all three policies stop at the first error; the
policy dispatch itself is in `EnvSet.Parse`). -/
def run : List String → EnvSet → EnvSet × Option ParseError × List SetCall
  | [], e => (e, none, [])
  | entry :: rest, e =>
    match parseEntry e entry with
    | (e1, some err, log) => (e1, some err, log)
    | (e1, none, log) =>
      match run rest e1 with
      | (e2, r2, log2) => (e2, r2, log ++ log2)

/-- How `EnvSet.Parse` ends: a normal return (carrying the returned error),
`os.Exit(code)`, or a Go panic carrying the error. -/
inductive ParseOutcome where
  | ret (err : Option ParseError)
  | exit (code : Nat)
  | panicked (err : ParseError)
deriving DecidableEq, Repr

/-- Model of `EnvSet.Parse`: mark the set parsed, run the `parseOne` loop,
then dispatch the configured policy on a failing step (`ContinueOnError`
returns the error, `ExitOnError` exits 0 for `ErrHelp` and 2 otherwise,
`PanicOnError` panics). -/
def EnvSet.Parse (e : EnvSet) (environment : List String) :
    EnvSet × ParseOutcome × List SetCall :=
  let r := run environment { e with parsed := true }
  match r.2.1 with
  | none => (r.1, .ret none, r.2.2)
  | some err =>
    match r.1.errorHandling with
    | .continueOnError => (r.1, .ret (some err), r.2.2)
    | .exitOnError =>
      (r.1, .exit (match err with | .help => 0 | _ => 2), r.2.2)
    | .panicOnError => (r.1, .panicked err, r.2.2)

/-! ### General lemmas about the registry and the parser -/

/-- Names of the logged `Set` calls that succeeded. -/
def okNames (log : List SetCall) : List String :=
  (log.filter fun c => c.err.isNone).map SetCall.name

/-- A legal caller-supplied `encoding.TextUnmarshaler` / `TextMarshaler`
pair that stores the unmarshalled text verbatim but marshals everything to
the empty text: `TextVar` accepts it, yet its `Set`/`String` pair does not
round-trip. -/
def lossyTextCallbacks : TextCallbacks :=
  { unmarshal := fun s _ => (s, none)
    marshal := some (fun _ => some "") }

/-! ### Claim C1 -/

/-- Concrete registry with two declared booleans `A` and `B`, used by the
parse scenarios. -/
def exampleRegistryAB : EnvSet :=
  { usageOverride := none
    name := "t"
    parsed := false
    actual := []
    formal := [("A", ⟨"A", "", Val.bool false, "false"⟩),
               ("B", ⟨"B", "", Val.bool false, "false"⟩)]
    errorHandling := .continueOnError
    output := []
    undef := [] }

/-- Concrete registry with the `ExitOnError` policy. -/
def exampleRegistryExit : EnvSet :=
  { exampleRegistryAB with errorHandling := .exitOnError }

/-! ### Claim C2: parse-kind versus range-kind failures -/

/-- Character class check of the integer grammar: a digit valid for the
given base. -/
def goodDigit (base : Nat) (c : Char) : Bool :=
  match digitVal c with
  | some d => decide (d < base)
  | none => false

/-- Grammar-side evaluation of a digit string (underscores skipped),
accumulating like the parse loop but without any width bound. -/
def digitsVal (base : Nat) : List Char → Nat → Nat
  | [], n => n
  | c :: cs, n =>
    digitsVal base cs (if c = '_' then n else n * base + (digitVal c).getD 0)

/-- Well-formedness of a text as a base-0 unsigned integer literal: nonempty,
every character after the base marker a digit of the detected base or an
underscore, and underscores only in separator positions. -/
def wellFormedUint (s : List Char) : Bool :=
  decide (s ≠ []) &&
    ((baseDetect s).2.all fun c => goodDigit (baseDetect s).1 c || decide (c = '_')) &&
    underscoreOK s

/-- Grammar-side value of a well-formed unsigned literal. -/
def uintGrammarVal (s : List Char) : Nat :=
  digitsVal (baseDetect s).1 (baseDetect s).2 0

/-- Well-formedness of a text as a base-0 signed integer literal: an optional
sign followed by a well-formed unsigned literal. -/
def wellFormedInt (s : List Char) : Bool := wellFormedUint (stripSign s).2

/-- Grammar-side value of a well-formed signed literal. -/
def intGrammarVal (s : List Char) : Int :=
  if (stripSign s).1 then -(uintGrammarVal (stripSign s).2 : Int)
  else (uintGrammarVal (stripSign s).2 : Int)

/-- The diagnostic `parseOne` hands to `failf` for a failing `Set`: the
`invalid value %q for variable %s: %v` format instantiated. -/
def failfMsg (value name : String) (err : SetError) : String :=
  "invalid value " ++ goQuote value ++ " for variable " ++ name ++ ": " ++
    setErrText err

/-- The text after a digit group, as the loops of `time`'s `leadingInt` and
`leadingFraction` see it: empty, or starting with a non-digit character. -/
def NonDigitHead : List Char → Prop
  | [] => True
  | c :: _ => c.toNat < 48 ∨ 57 < c.toNat

/-- A run of decimal digit characters. -/
def DigitChars (ds : List Char) : Prop :=
  ∀ c ∈ ds, 48 ≤ c.toNat ∧ c.toNat ≤ 57

/-- The text state at which `spanUnit` stops consuming: end of input, a
decimal point, or a digit. -/
def StopHead : List Char → Prop
  | [] => True
  | c :: _ => c = '.' ∨ 48 ≤ c.toNat ∧ c.toNat ≤ 57

theorem natDigitsAuxF_fuel : ∀ (f1 f2 n : Nat) (acc : List Char),
    n ≤ f1 → n ≤ f2 → natDigitsAuxF f1 n acc = natDigitsAuxF f2 n acc := by
  intro f1
  induction f1 with
  | zero =>
    intro f2 n acc h1 h2
    interval_cases n
    cases f2 <;> simp [natDigitsAuxF]
  | succ f ih =>
    intro f2 n acc h1 h2
    match f2 with
    | 0 =>
      interval_cases n
      simp [natDigitsAuxF]
    | f2 + 1 =>
      simp only [natDigitsAuxF]
      split
      · rfl
      · rename_i hn
        exact ih _ _ _
          (by
            have := Nat.div_lt_self (Nat.pos_of_ne_zero hn) (show 1 < 10 by decide)
            omega)
          (by
            have := Nat.div_lt_self (Nat.pos_of_ne_zero hn) (show 1 < 10 by decide)
            omega)

theorem natDigitsAux_step (n : Nat) (acc : List Char) :
    natDigitsAux n acc =
      if n = 0 then acc
      else natDigitsAux (n / 10) (Char.ofNat (48 + n % 10) :: acc) := by
  match n with
  | 0 => simp [natDigitsAux, natDigitsAuxF]
  | n + 1 =>
    simp only [natDigitsAux, natDigitsAuxF, Nat.succ_ne_zero, if_false]
    exact natDigitsAuxF_fuel _ _ _ _
      (by
        have := Nat.div_lt_self (Nat.succ_pos n) (show 1 < 10 by decide)
        omega)
      (Nat.le_refl _)

theorem leadingIntLoop_rem_length :
    ∀ (s : List Char) (x v : Nat) (r : List Char),
      leadingIntLoop s x = some (v, r) → r.length ≤ s.length := by
  intro s
  induction s with
  | nil =>
    intro x v r h
    simp only [leadingIntLoop] at h
    cases h
    simp
  | cons c cs ih =>
    intro x v r h
    simp only [leadingIntLoop] at h
    split at h
    · cases h; simp
    · split at h
      · cases h
      · split at h
        · cases h
        · exact le_trans (ih _ _ _ h) (by simp)

theorem leadingFractionLoop_rem_length :
    ∀ (s : List Char) (x scale : Nat) (ov : Bool),
      (leadingFractionLoop s x scale ov).2.2.length ≤ s.length := by
  intro s
  induction s with
  | nil => intro x scale ov; simp [leadingFractionLoop]
  | cons c cs ih =>
    intro x scale ov
    simp only [leadingFractionLoop]
    split
    · simp
    · split
      · exact le_trans (ih _ _ _) (by simp)
      · split
        · exact le_trans (ih _ _ _) (by simp)
        · split
          · exact le_trans (ih _ _ _) (by simp)
          · exact le_trans (ih _ _ _) (by simp)

theorem spanUnit_append (s : List Char) : (spanUnit s).1 ++ (spanUnit s).2 = s := by
  induction s with
  | nil => simp [spanUnit]
  | cons c cs ih =>
    simp only [spanUnit]
    split
    · simp
    · simpa using ih

theorem spanUnit_rem_lt (s : List Char) (h : (spanUnit s).1 ≠ []) :
    (spanUnit s).2.length < s.length := by
  have := congrArg List.length (spanUnit_append s)
  simp only [List.length_append] at this
  have hp : 0 < (spanUnit s).1.length := List.length_pos.mpr h
  omega

theorem durFraction_rem_le (s : List Char) :
    (durFraction s).2.2.1.length ≤ s.length := by
  match s with
  | [] => simp [durFraction]
  | c :: cs =>
    by_cases hdot : c = '.'
    · subst hdot
      have := leadingFractionLoop_rem_length cs 0 1 false
      simpa [durFraction, leadingFraction] using le_trans this (by simp)
    · have : durFraction (c :: cs) = (0, 1, c :: cs, false) := by
        rw [durFraction.eq_def]
        split
        · rename_i s1t heq
          injection heq with h1 h2
          subst h1
          exact absurd rfl hdot
        · rfl
      simp [this]

theorem durChunkFinish_some (x v : Nat) (s3 r : List Char)
    (h : durChunkFinish x s3 = some (v, r)) : r = s3 := by
  unfold durChunkFinish at h
  split at h
  · exact absurd h (by simp)
  · injection h with h2
    exact (congrArg Prod.snd h2).symm

theorem durChunk_rem_lt : ∀ (s : List Char) (v : Nat) (r : List Char),
    durChunk s = some (v, r) → r.length < s.length := by
  intro s v r h
  match s with
  | [] => simp [durChunk] at h
  | c :: cs =>
    rw [durChunk] at h
    split at h
    · exact absurd h (by simp)
    · split at h
      · exact absurd h (by simp)
      · rename_i v0 s1 hli
        split at h
        · exact absurd h (by simp)
        · split at h
          · exact absurd h (by simp)
          · rename_i u us s3 hsp
            split at h
            · exact absurd h (by simp)
            · rename_i unit hunit
              split at h
              · exact absurd h (by simp)
              · have hr : r = s3 := durChunkFinish_some _ _ _ _ h
                subst hr
                have h1 : s1.length ≤ (c :: cs).length :=
                  leadingIntLoop_rem_length _ _ _ _ hli
                have h2 : (durFraction s1).2.2.1.length ≤ s1.length :=
                  durFraction_rem_le s1
                have h3 : r.length < (durFraction s1).2.2.1.length := by
                  have hne : (spanUnit (durFraction s1).2.2.1).1 ≠ [] := by
                    rw [hsp]; simp
                  have := spanUnit_rem_lt (durFraction s1).2.2.1 hne
                  rw [hsp] at this
                  exact this
                omega

theorem parseDurationLoopF_fuel : ∀ (f1 : Nat) (s : List Char) (f2 d : Nat),
    s.length ≤ f1 → s.length ≤ f2 →
    parseDurationLoopF f1 s d = parseDurationLoopF f2 s d := by
  intro f1
  induction f1 with
  | zero =>
    intro s f2 d h1 h2
    match s with
    | [] => cases f2 <;> simp [parseDurationLoopF]
    | c :: cs => simp at h1
  | succ f ih =>
    intro s f2 d h1 h2
    match s with
    | [] => cases f2 <;> simp [parseDurationLoopF]
    | c :: cs =>
      match f2 with
      | 0 => simp at h2
      | f2 + 1 =>
        simp only [parseDurationLoopF]
        match hch : durChunk (c :: cs) with
        | none => rfl
        | some (v2, s3) =>
          simp only []
          split
          · rfl
          · have hlt := durChunk_rem_lt (c :: cs) v2 s3 hch
            simp only [List.length_cons] at h1 h2 hlt
            exact ih _ _ _ (by omega) (by omega)

theorem parseDurationLoop_step (s : List Char) (d : Nat) :
    parseDurationLoop s d =
      match s with
      | [] => some d
      | c :: cs =>
        match durChunk (c :: cs) with
        | none => none
        | some (v2, s3) =>
          if 2 ^ 63 < d + v2 then none
          else parseDurationLoop s3 (d + v2) := by
  match s with
  | [] => rfl
  | c :: cs =>
    simp only [parseDurationLoop, List.length_cons, parseDurationLoopF]
    match hch : durChunk (c :: cs) with
    | none => rfl
    | some (v2, s3) =>
      simp only []
      split
      · rfl
      · have hlt := durChunk_rem_lt (c :: cs) v2 s3 hch
        simp only [List.length_cons] at hlt
        exact parseDurationLoopF_fuel _ _ _ _ (by omega) (Nat.le_refl _)

theorem lookupFormal_mem (formal : List (String × Spec)) (name : String)
    (sp : Spec) (h : lookupFormal formal name = some sp) :
    name ∈ formal.map Prod.fst := by
  induction formal with
  | nil => simp [lookupFormal] at h
  | cons kv rest ih =>
    rw [lookupFormal] at h
    by_cases hk : kv.1 = name
    · simp [hk]
    · rw [if_neg hk] at h
      simp [ih h]

theorem updateFormal_keys (formal : List (String × Spec)) (name : String)
    (v : Val) :
    (updateFormal formal name v).map Prod.fst = formal.map Prod.fst := by
  induction formal with
  | nil => rfl
  | cons kv rest ih =>
    rw [updateFormal]
    by_cases hk : kv.1 = name
    · simp [hk]
    · simp [if_neg hk, ih]

theorem insertActual_mem (actual : List String) (name m : String) :
    m ∈ insertActual actual name ↔ m ∈ actual ∨ m = name := by
  unfold insertActual
  split
  · rename_i hmem
    constructor
    · exact fun h => Or.inl h
    · rintro (h | h)
      · exact h
      · exact h ▸ hmem
  · simp

theorem failf_fields (e : EnvSet) (msg : String) :
    (EnvSet.failf e msg).1.actual = e.actual ∧
    (EnvSet.failf e msg).1.formal = e.formal ∧
    (EnvSet.failf e msg).1.errorHandling = e.errorHandling := by
  exact ⟨rfl, rfl, rfl⟩

/-- Per-step effect of `parseOne` on `actual` and on the keys of `formal`:
keys never change, and exactly the names of the successful `Set` calls are
added to `actual` (each of them a declared name). -/
theorem parseEntry_actual (e : EnvSet) (s : String) :
    ((parseEntry e s).1.formal.map Prod.fst = e.formal.map Prod.fst) ∧
    (∀ n, n ∈ (parseEntry e s).1.actual ↔
      n ∈ e.actual ∨ n ∈ okNames (parseEntry e s).2.2) ∧
    (∀ n, n ∈ okNames (parseEntry e s).2.2 → n ∈ e.formal.map Prod.fst) := by
  simp only [parseEntry]
  split
  · refine ⟨?_, fun n => ?_, fun n => ?_⟩ <;> simp [okNames]
  · rename_i hname
    match hlf : lookupFormal e.formal (cutEq s).1 with
    | none =>
      simp only [hlf]
      refine ⟨?_, fun n => ?_, fun n => ?_⟩ <;> simp [okNames]
    | some spec =>
      simp only [hlf]
      match hsv : (valSet spec.value (cutEq s).2).2 with
      | some err =>
        simp only [hsv]
        refine ⟨?_, fun n => ?_, fun n => ?_⟩
        · rw [(failf_fields _ _).2.1]
          exact updateFormal_keys _ _ _
        · rw [(failf_fields _ _).1]
          simp [okNames]
        · simp [okNames]
      | none =>
        simp only [hsv]
        refine ⟨updateFormal_keys _ _ _, fun n => ?_, fun n => ?_⟩
        · simp only [okNames, List.filter, List.map]
          simpa using insertActual_mem e.actual (cutEq s).1 n
        · simp only [okNames, List.filter, List.map]
          intro hn
          simp at hn
          exact hn ▸ lookupFormal_mem _ _ _ hlf

theorem okNames_append (l1 l2 : List SetCall) :
    okNames (l1 ++ l2) = okNames l1 ++ okNames l2 := by
  simp [okNames]

/-- Run-level accumulation: over a whole `parseOne` loop the declared keys
never change, and `actual` afterwards is exactly the union of the `actual`
before with the successfully observed names of the call. -/
theorem run_actual (env : List String) : ∀ (e : EnvSet),
    ((run env e).1.formal.map Prod.fst = e.formal.map Prod.fst) ∧
    (∀ n, n ∈ (run env e).1.actual ↔
      n ∈ e.actual ∨ n ∈ okNames (run env e).2.2) ∧
    (∀ n, n ∈ okNames (run env e).2.2 → n ∈ e.formal.map Prod.fst) := by
  induction env with
  | nil =>
    intro e
    exact ⟨rfl, fun n => by simp [run, okNames], fun n => by simp [run, okNames]⟩
  | cons entry rest ih =>
    intro e
    have hpe := parseEntry_actual e entry
    rw [run]
    match hp : parseEntry e entry with
    | (e1, some err, log) =>
      simp only []
      rw [hp] at hpe
      exact hpe
    | (e1, none, log) =>
      simp only []
      rw [hp] at hpe
      have hr := ih e1
      match hr2 : run rest e1 with
      | (e2, r2, log2) =>
        rw [hr2] at hr
        simp only []
        refine ⟨hr.1.trans hpe.1, fun n => ?_, fun n hn => ?_⟩
        · rw [okNames_append]
          constructor
          · intro h
            rcases (hr.2.1 n).mp h with h1 | h1
            · rcases (hpe.2.1 n).mp h1 with h2 | h2
              · exact Or.inl h2
              · exact Or.inr (by simp [h2])
            · exact Or.inr (by simp [h1])
          · rintro (h1 | h1)
            · exact (hr.2.1 n).mpr (Or.inl ((hpe.2.1 n).mpr (Or.inl h1)))
            · simp only [List.mem_append] at h1
              rcases h1 with h2 | h2
              · exact (hr.2.1 n).mpr (Or.inl ((hpe.2.1 n).mpr (Or.inr h2)))
              · exact (hr.2.1 n).mpr (Or.inr h2)
        · rw [okNames_append] at hn
          simp only [List.mem_append] at hn
          rcases hn with h1 | h1
          · exact hpe.2.2 n h1
          · exact hpe.1 ▸ hr.2.2 n h1

/-- The final registry state and the `Set` log of `EnvSet.Parse` are those of
the underlying `parseOne` loop, whatever the policy does with the error. -/
theorem Parse_state_log (e : EnvSet) (env : List String) :
    (EnvSet.Parse e env).1 = (run env { e with parsed := true }).1 ∧
    (EnvSet.Parse e env).2.2 = (run env { e with parsed := true }).2.2 := by
  simp only [EnvSet.Parse]
  split
  · exact ⟨rfl, rfl⟩
  · split <;> exact ⟨rfl, rfl⟩

/-- Claim C1, counterexample: after `Parse ["A=true"]` followed by
`Parse ["B=true"]` on the same registry, the name `A` — observed only during
the first call and absent from the second environment list — is still in
`actual`, so `actual` is not rebuilt fresh on every `Parse` call. -/
theorem claim1_cex :
    (EnvSet.Parse (EnvSet.Parse exampleRegistryAB ["A=true"]).1
        ["B=true"]).1.actual = ["A", "B"] ∧
    (["B=true"].map fun s => (cutEq s).1) = ["B"] := by
  constructor
  · rfl
  · rfl

/-- Claim C1, amended: `actual` stays a subset of the declared names, but it
is cumulative rather than rebuilt fresh — after a `Parse` call it contains
exactly the names it contained before the call together with the declared
names whose `Set` succeeded during the call. -/
theorem claim1_amended (e : EnvSet) (env : List String)
    (hsub : ∀ n, n ∈ e.actual → n ∈ e.formal.map Prod.fst) :
    (∀ n, n ∈ (EnvSet.Parse e env).1.actual →
      n ∈ (EnvSet.Parse e env).1.formal.map Prod.fst) ∧
    (∀ n, n ∈ (EnvSet.Parse e env).1.actual ↔
      n ∈ e.actual ∨ n ∈ okNames (EnvSet.Parse e env).2.2) := by
  obtain ⟨h1, h2⟩ := Parse_state_log e env
  have hr := run_actual env { e with parsed := true }
  rw [h1, h2]
  refine ⟨fun n hn => ?_, fun n => ?_⟩
  · rcases (hr.2.1 n).mp hn with h | h
    · rw [hr.1]
      exact hsub n h
    · rw [hr.1]
      exact hr.2.2 n h
  · exact hr.2.1 n

/-- Claim C1, witness: the amended characterization evaluated on the
concrete registry. -/
theorem claim1_witness :
    "A" ∈ (EnvSet.Parse exampleRegistryAB ["A=true"]).1.actual ↔
      "A" ∈ exampleRegistryAB.actual ∨
        "A" ∈ okNames (EnvSet.Parse exampleRegistryAB ["A=true"]).2.2 :=
  (claim1_amended exampleRegistryAB ["A=true"]
    (by simp [exampleRegistryAB])).2 "A"

/-! ### Claims C4, C5, C9: help short-circuit, exit codes, unknown names -/

theorem parseEntry_help (e : EnvSet) (s : String)
    (h : (cutEq s).1 = "HELP" ∨ (cutEq s).1 = "H") :
    parseEntry e s = ({ e with output := e.output ++ usage e }, some .help, []) := by
  simp only [parseEntry]
  rw [if_pos h]

theorem parseEntry_errorHandling (e : EnvSet) (s : String) :
    (parseEntry e s).1.errorHandling = e.errorHandling := by
  simp only [parseEntry]
  split
  · rfl
  · split
    · rfl
    · split
      · exact (failf_fields _ _).2.2.trans rfl
      · rfl

theorem run_errorHandling (env : List String) : ∀ (e : EnvSet),
    (run env e).1.errorHandling = e.errorHandling := by
  induction env with
  | nil => intro e; rfl
  | cons entry rest ih =>
    intro e
    have hpe := parseEntry_errorHandling e entry
    rw [run]
    match hp : parseEntry e entry with
    | (e1, some err, log) =>
      simp only []
      rw [hp] at hpe
      exact hpe
    | (e1, none, log) =>
      simp only []
      rw [hp] at hpe
      match hr2 : run rest e1 with
      | (e2, r2, log2) =>
        simp only []
        have := ih e1
        rw [hr2] at this
        exact this.trans hpe

/-- Composition of the `parseOne` loop over a split input list. -/
theorem run_append (xs ys : List String) : ∀ (e : EnvSet),
    run (xs ++ ys) e =
      match run xs e with
      | (e1, some err, log) => (e1, some err, log)
      | (e1, none, log) =>
        ((run ys e1).1, (run ys e1).2.1, log ++ (run ys e1).2.2) := by
  induction xs with
  | nil =>
    intro e
    rw [List.nil_append]
    simp [run]
  | cons entry rest ih =>
    intro e
    rw [List.cons_append, run, run]
    match hp : parseEntry e entry with
    | (e1, some err, log) => rfl
    | (e1, none, log) =>
      simp only []
      rw [ih e1]
      match hr : run rest e1 with
      | (e2, some err2, log2) => rfl
      | (e2, none, log2) =>
        simp only []
        match hr2 : run ys e2 with
        | (e3, r3, log3) => simp

/-- Claim C4: when the entries before it all parse cleanly, an entry named
`HELP` or `H` (with any or no value) makes `Parse` under `ContinueOnError`
render the usage listing, return the `ErrHelp` sentinel, perform no `Set`
call for that entry or any later one, and leave the state reached before the
entry otherwise untouched. -/
theorem claim4_help (e : EnvSet) (pre rest : List String) (entry : String)
    (hpol : e.errorHandling = .continueOnError)
    (hhelp : (cutEq entry).1 = "HELP" ∨ (cutEq entry).1 = "H")
    (e1 : EnvSet) (log1 : List SetCall)
    (hrun : run pre { e with parsed := true } = (e1, none, log1)) :
    EnvSet.Parse e (pre ++ entry :: rest) =
      ({ e1 with output := e1.output ++ usage e1 }, .ret (some .help), log1) := by
  have hstep : run (entry :: rest) e1 =
      ({ e1 with output := e1.output ++ usage e1 }, some .help, []) := by
    rw [run, parseEntry_help e1 entry hhelp]
  have hfull : run (pre ++ entry :: rest) { e with parsed := true } =
      ({ e1 with output := e1.output ++ usage e1 }, some .help, log1) := by
    rw [run_append, hrun]
    simp only [hstep]
    simp
  have hEH : ({ e1 with output := e1.output ++ usage e1 } : EnvSet).errorHandling
      = ErrorHandling.continueOnError := by
    have := run_errorHandling pre { e with parsed := true }
    rw [hrun] at this
    exact this.trans hpol
  simp only [EnvSet.Parse, hfull, hEH]

/-- Claim C4, witness: parsing `["HELP=1"]` against the concrete registry
returns the help sentinel after rendering usage, with no `Set` calls. -/
theorem claim4_witness :
    EnvSet.Parse exampleRegistryAB ["HELP=1"] =
      ({ { exampleRegistryAB with parsed := true } with
          output := ({ exampleRegistryAB with parsed := true } : EnvSet).output
            ++ usage { exampleRegistryAB with parsed := true } },
        .ret (some .help), []) :=
  claim4_help exampleRegistryAB [] [] "HELP=1" rfl (Or.inl rfl)
    { exampleRegistryAB with parsed := true } [] rfl

/-- Claim C5: under `ExitOnError`, a failing parse step ends the process
with status 0 when the failure is the help sentinel and status 2 otherwise;
when no step fails, `Parse` returns normally instead of exiting. -/
theorem claim5_exit_codes (e : EnvSet) (env : List String)
    (hpol : e.errorHandling = .exitOnError) :
    ((run env { e with parsed := true }).2.1 = some .help →
      (EnvSet.Parse e env).2.1 = .exit 0) ∧
    (∀ msg, (run env { e with parsed := true }).2.1 = some (.failure msg) →
      (EnvSet.Parse e env).2.1 = .exit 2) ∧
    ((run env { e with parsed := true }).2.1 = none →
      (EnvSet.Parse e env).2.1 = .ret none) := by
  have hEH : (run env { e with parsed := true }).1.errorHandling =
      ErrorHandling.exitOnError :=
    (run_errorHandling env { e with parsed := true }).trans hpol
  refine ⟨fun hh => ?_, fun msg hm => ?_, fun hn => ?_⟩
  · simp [EnvSet.Parse, hh, hEH]
  · simp [EnvSet.Parse, hm, hEH]
  · simp [EnvSet.Parse, hn]

/-- Claim C5, witness: a help request under `ExitOnError` exits 0, a
malformed boolean exits 2, a clean list returns normally. -/
theorem claim5_witness :
    (EnvSet.Parse exampleRegistryExit ["HELP=1"]).2.1 = .exit 0 ∧
    (EnvSet.Parse exampleRegistryExit ["A=zz"]).2.1 = .exit 2 ∧
    (EnvSet.Parse exampleRegistryExit ["A=true"]).2.1 = .ret none :=
  ⟨(claim5_exit_codes exampleRegistryExit ["HELP=1"] rfl).1 (by rfl),
   (claim5_exit_codes exampleRegistryExit ["A=zz"] rfl).2.1 _ (by rfl),
   (claim5_exit_codes exampleRegistryExit ["A=true"] rfl).2.2 (by rfl)⟩

/-- Claim C9: an entry whose name is neither `HELP` nor `H` and is not
declared is silently skipped — the step reports no error, writes nothing to
the output sink, performs no `Set` call, and leaves `actual` (indeed the
whole registry state) unchanged. -/
theorem claim9_unknown_skipped (e : EnvSet) (s : String)
    (hh : (cutEq s).1 ≠ "HELP") (hh2 : (cutEq s).1 ≠ "H")
    (hlf : lookupFormal e.formal (cutEq s).1 = none) :
    parseEntry e s = (e, none, []) := by
  simp only [parseEntry, hlf]
  rw [if_neg]
  rintro (h | h) <;> contradiction

/-- Claim C9, witness: the undeclared entry `UNRELATED=x` is skipped without
any effect on the concrete registry. -/
theorem claim9_witness :
    parseEntry exampleRegistryAB "UNRELATED=x" = (exampleRegistryAB, none, []) :=
  claim9_unknown_skipped exampleRegistryAB "UNRELATED=x" (by decide) (by decide) rfl

/-! ### Claim C6: declaration-time faults -/

theorem lookupFormal_isSome_of_mem (formal : List (String × Spec))
    (name : String) (h : name ∈ formal.map Prod.fst) :
    (lookupFormal formal name).isSome := by
  induction formal with
  | nil => simp at h
  | cons kv rest ih =>
    rw [lookupFormal]
    by_cases hk : kv.1 = name
    · simp [hk]
    · rw [if_neg hk]
      simp only [List.map_cons, List.mem_cons] at h
      rcases h with h | h
      · exact absurd h.symm hk
      · exact ih h

/-- Claim C6: declaring a name that is already declared, or a name that
contains `=`, aborts with a panic — for every registry (hence every
error-handling policy) and every `Value` kind; the fault is a distinguished
`panicked` outcome, never an error return (`VarResult` has no error-return
constructor). -/
theorem claim6_declaration_faults (e : EnvSet) (value : Val)
    (name description : String)
    (h : name ∈ e.formal.map Prod.fst ∨ name.data.contains '=' = true) :
    ∃ msg e1, EnvSet.Var e value name description = .panicked msg e1 := by
  unfold EnvSet.Var
  by_cases hc : name.data.contains '=' = true
  · rw [if_pos hc]
    exact ⟨_, _, rfl⟩
  · rw [if_neg hc]
    have hmem : name ∈ e.formal.map Prod.fst := by
      rcases h with h | h
      · exact h
      · exact absurd h hc
    rw [if_pos (lookupFormal_isSome_of_mem e.formal name hmem)]
    exact ⟨_, _, rfl⟩

/-- Claim C6, witness: redeclaring `A` on the concrete registry panics, and
declaring a name containing `=` panics, across two different kinds. -/
theorem claim6_witness :
    (∃ msg e1, EnvSet.Var exampleRegistryAB (Val.bool false) "A" "" =
      .panicked msg e1) ∧
    (∃ msg e1, EnvSet.Var exampleRegistryAB (Val.duration 0) "X=Y" "" =
      .panicked msg e1) :=
  ⟨claim6_declaration_faults exampleRegistryAB (Val.bool false) "A" ""
      (Or.inl (by decide)),
   claim6_declaration_faults exampleRegistryAB (Val.duration 0) "X=Y" ""
      (Or.inr (by decide))⟩

/-! ### Claim C3: the empty value for bool variables -/

theorem splitAtChar_not_mem_append (c : Char) :
    ∀ (xs ys : List Char), c ∉ xs →
      splitAtChar c (xs ++ c :: ys) = some (xs, ys) := by
  intro xs
  induction xs with
  | nil =>
    intro ys h
    simp [splitAtChar]
  | cons x rest ih =>
    intro ys h
    rw [List.cons_append, splitAtChar]
    rw [if_neg (by simp at h; exact fun hx => h.1 hx.symm)]
    rw [ih ys (by simp at h; exact h.2)]
    rfl

theorem cutEq_name_empty (name : String) (h : '=' ∉ name.data) :
    cutEq (name ++ "=") = (name, "") := by
  unfold cutEq
  have hd : (name ++ "=").data = name.data ++ '=' :: [] := by
    simp [String.data_append]
  rw [hd, splitAtChar_not_mem_append '=' name.data [] h]

theorem lookupFormal_updateFormal (f : List (String × Spec)) (n : String)
    (v : Val) :
    lookupFormal (updateFormal f n v) n =
      (lookupFormal f n).map fun sp => { sp with value := v } := by
  induction f with
  | nil => rfl
  | cons kv rest ih =>
    rw [updateFormal]
    by_cases hk : kv.1 = n
    · rw [if_pos hk, lookupFormal, if_pos hk, lookupFormal, if_pos hk]
      rfl
    · rw [if_neg hk, lookupFormal, if_neg hk, lookupFormal, if_neg hk]
      exact ih

/-- Claim C3, counterexample: against the concrete registry declaring bool
`A`, parsing `["A="]` under `ContinueOnError` does not behave as if the
value were `true`: the call fails with a parse-kind diagnostic, the stored
cell is `false`, and `A` is not recorded as observed. -/
theorem claim3_cex :
    (EnvSet.Parse exampleRegistryAB ["A="]).2.1 =
      .ret (some (.failure ("invalid value " ++ goQuote "" ++
        " for variable A: " ++ setErrText .parse))) ∧
    lookupFormal (EnvSet.Parse exampleRegistryAB ["A="]).1.formal "A" =
      some ⟨"A", "", Val.bool false, "false"⟩ ∧
    (EnvSet.Parse exampleRegistryAB ["A="]).1.actual = [] := by
  exact ⟨rfl, rfl, rfl⟩

/-- Claim C3, amended: `boolValue` does expose the `IsBoolVar` marker, but
`parseOne` never consults it (and `boolFuncValue` has no such method): for a
declared bool variable, the entry `NAME=` calls `Set` with the empty string,
which is a parse-kind failure that stores `false`; for a `BoolFunc`
variable, `NAME=` invokes the callback with the empty string and fails
exactly when the callback does. -/
theorem claim3_amended (e : EnvSet) (name : String) (spec : Spec)
    (hname : '=' ∉ name.data)
    (hh : name ≠ "HELP") (hh2 : name ≠ "H")
    (hlf : lookupFormal e.formal name = some spec) :
    boolValueIsBoolVar = true ∧
    (∀ b, spec.value = .bool b →
      (parseEntry e (name ++ "=")).2.2 = [⟨name, "", some .parse⟩] ∧
      lookupFormal (parseEntry e (name ++ "=")).1.formal name =
        some { spec with value := .bool false } ∧
      (parseEntry e (name ++ "=")).2.1 ≠ none) ∧
    (∀ f, spec.value = .boolFunc f →
      (parseEntry e (name ++ "=")).2.2 = [⟨name, "", (f "").map .custom⟩] ∧
      (f "" = none → (parseEntry e (name ++ "=")).2.1 = none)) := by
  have hcut : cutEq (name ++ "=") = (name, "") := cutEq_name_empty name hname
  refine ⟨rfl, fun b hb => ?_, fun f hf => ?_⟩
  · have hstep : parseEntry e (name ++ "=") =
        ((EnvSet.failf
            { e with formal := updateFormal e.formal name (.bool false) }
            ("invalid value " ++ goQuote "" ++ " for variable " ++ name ++
              ": " ++ setErrText .parse)).1,
          some (EnvSet.failf
            { e with formal := updateFormal e.formal name (.bool false) }
            ("invalid value " ++ goQuote "" ++ " for variable " ++ name ++
              ": " ++ setErrText .parse)).2,
          [⟨name, "", some .parse⟩]) := by
      simp only [parseEntry, hcut]
      rw [if_neg (by rintro (h | h) <;> contradiction)]
      rw [hlf]
      simp only [hb]
      rfl
    refine ⟨by rw [hstep], ?_, by rw [hstep]; simp⟩
    rw [hstep]
    show lookupFormal
        (updateFormal e.formal name (Val.bool false)) name = _
    rw [lookupFormal_updateFormal, hlf]
    rfl
  · simp only [parseEntry, hcut]
    rw [if_neg (by rintro (h | h) <;> contradiction)]
    rw [hlf]
    simp only [hf, valSet, funcValueSet]
    match hf0 : f "" with
    | none => exact ⟨rfl, fun _ => rfl⟩
    | some m =>
      refine ⟨rfl, fun hcontra => ?_⟩
      cases hcontra

/-- Claim C3, witness: the amended behavior evaluated for the concrete bool
variable `A`. -/
theorem claim3_witness :
    (parseEntry exampleRegistryAB ("A" ++ "=")).2.2 =
      [⟨"A", "", some .parse⟩] ∧
    lookupFormal (parseEntry exampleRegistryAB ("A" ++ "=")).1.formal "A" =
      some { (⟨"A", "", Val.bool false, "false"⟩ : Spec) with
        value := .bool false } ∧
    (parseEntry exampleRegistryAB ("A" ++ "=")).2.1 ≠ none :=
  (claim3_amended exampleRegistryAB "A" ⟨"A", "", Val.bool false, "false"⟩
    (by decide) (by decide) (by decide) rfl).2.1 false rfl

/-! ### Claim C8: the parenthetical default in the usage listing -/

/-- Claim C8: the default suffix of a usage line is present exactly when the
captured default text differs from the `String()` rendering of a
zero-initialized instance of the same concrete `Value` kind; for the string
kind the default is additionally quoted; and the zero renderings of the
declared kinds are the listed constants (`false`, `0`, the empty string,
`0s`). -/
theorem claim8_default_suffix (spec : Spec) :
    ((defaultSuffix spec).isSome ↔
      spec.defValue ≠ valString (zeroVal spec.value)) ∧
    (∀ s0, spec.value = .str s0 →
      defaultSuffix spec =
        if spec.defValue = "" then none
        else some (" (default " ++ goQuote spec.defValue ++ ")")) ∧
    (∀ v : Val, valString (zeroVal v) =
      match v with
      | .bool _ => "false"
      | .int _ => "0"
      | .int64 _ => "0"
      | .uint _ => "0"
      | .uint64 _ => "0"
      | .str _ => ""
      | .duration _ => "0s"
      | .text _ _ => ""
      | .func _ => ""
      | .boolFunc _ => "") := by
  refine ⟨?_, fun s0 hs0 => ?_, fun v => ?_⟩
  · unfold defaultSuffix isZeroValue
    split
    · rename_i hz
      simp only [decide_eq_true_eq] at hz
      simp [hz]
    · rename_i hz
      simp only [decide_eq_true_eq] at hz
      simp [hz]
  · unfold defaultSuffix isZeroValue
    rw [hs0]
    split
    · rename_i hz
      simp only [decide_eq_true_eq, valString, zeroVal] at hz
      simp [hz]
    · rename_i hz
      simp only [decide_eq_true_eq, valString, zeroVal] at hz
      rw [if_neg hz]
  · cases v <;> rfl

/-- Claim C8, witness: a string variable with default `x` carries a quoted
default suffix, and the bool examples from the specification — default
`false` omits the suffix, default `true` includes it. -/
theorem claim8_witness :
    defaultSuffix (⟨"S", "", Val.str "s0", "x"⟩ : Spec) =
      some (" (default " ++ goQuote "x" ++ ")") ∧
    ((defaultSuffix (⟨"A", "", Val.bool false, "false"⟩ : Spec)).isSome ↔
      ("false" : String) ≠ "false") ∧
    ((defaultSuffix (⟨"A", "", Val.bool true, "true"⟩ : Spec)).isSome ↔
      ("true" : String) ≠ "false") := by
  refine ⟨?_, ?_, ?_⟩
  · have h := (claim8_default_suffix ⟨"S", "", Val.str "s0", "x"⟩).2.1 "s0" rfl
    simpa using h
  · exact (claim8_default_suffix ⟨"A", "", Val.bool false, "false"⟩).1
  · exact (claim8_default_suffix ⟨"A", "", Val.bool true, "true"⟩).1

/-! ### Claim C10: which kinds overwrite their cell on a failed Set -/

theorem parseUintLoop_err_val (base maxVal cutoff : Nat) :
    ∀ (s : List Char) (n : Nat) (us : Bool),
      ((parseUintLoop base maxVal cutoff s n us).2.1 = some .syn →
        (parseUintLoop base maxVal cutoff s n us).1 = 0) ∧
      ((parseUintLoop base maxVal cutoff s n us).2.1 = some .range →
        (parseUintLoop base maxVal cutoff s n us).1 = maxVal) := by
  intro s
  induction s with
  | nil => intro n us; simp [parseUintLoop]
  | cons c cs ih =>
    intro n us
    rw [parseUintLoop]
    split
    · exact ih n true
    · match digitVal c with
      | none => simp
      | some d =>
        simp only []
        split
        · simp
        · split
          · simp
          · split
            · simp
            · exact ih _ us

theorem parseUintGo_err_val (bitSize : Nat) (s : List Char) :
    ((parseUintGo bitSize s).2 = some .syn → (parseUintGo bitSize s).1 = 0) ∧
    ((parseUintGo bitSize s).2 = some .range →
      (parseUintGo bitSize s).1 = 2 ^ bitSize - 1) := by
  unfold parseUintGo
  split
  · simp
  · simp only []
    match hl : parseUintLoop (baseDetect s).1 (2 ^ bitSize - 1)
      ((2 ^ 64 - 1) / (baseDetect s).1 + 1) (baseDetect s).2 0 false with
    | (n, none, us) =>
      simp only []
      split
      · simp
      · simp
    | (n, some e0, us) =>
      simp only []
      have := parseUintLoop_err_val (baseDetect s).1 (2 ^ bitSize - 1)
        ((2 ^ 64 - 1) / (baseDetect s).1 + 1) (baseDetect s).2 0 false
      rw [hl] at this
      simp only [] at this
      constructor
      · intro h
        injection h with h1
        exact this.1 (by rw [h1])
      · intro h
        injection h with h1
        exact this.2 (by rw [h1])

theorem parseIntGo_err_val (bitSize : Nat) (s : List Char) :
    ((parseIntGo bitSize s).2 = some .syn → (parseIntGo bitSize s).1 = 0) ∧
    ((parseIntGo bitSize s).2 = some .range →
      (parseIntGo bitSize s).1 = (2 : Int) ^ (bitSize - 1) - 1 ∨
      (parseIntGo bitSize s).1 = -((2 : Int) ^ (bitSize - 1))) := by
  unfold parseIntGo
  split
  · simp
  · simp only []
    split
    · simp
    · split
      · rename_i h1 h2
        constructor
        · intro h; cases h
        · intro h
          exact Or.inl (by push_cast; ring)
      · split
        · constructor
          · intro h; cases h
          · intro h
            exact Or.inr (by push_cast; ring)
        · simp

/-- Claim C10: when `Set` fails, the bool kind stores `false`, the integer
kinds store zero on a syntax error and the width-clamped bound on a range
error, while the float64 and duration kinds leave the caller's cell
unchanged — `Set` is non-atomic for the former and atomic for the latter. -/
theorem claim10_set_atomicity :
    (∀ s cell, (boolValueSet s cell).2.isSome → (boolValueSet s cell).1 = false) ∧
    (∀ s cell, (int64ValueSet s cell).2 = some .parse →
      (int64ValueSet s cell).1 = 0) ∧
    (∀ s cell, (int64ValueSet s cell).2 = some .range →
      (int64ValueSet s cell).1 = 2 ^ 63 - 1 ∨
      (int64ValueSet s cell).1 = -(2 ^ 63)) ∧
    (∀ s cell, (intValueSet s cell).2 = some .parse →
      (intValueSet s cell).1 = 0) ∧
    (∀ s cell, (intValueSet s cell).2 = some .range →
      (intValueSet s cell).1 = 2 ^ (intSize - 1) - 1 ∨
      (intValueSet s cell).1 = -(2 ^ (intSize - 1))) ∧
    (∀ s cell, (uint64ValueSet s cell).2 = some .parse →
      (uint64ValueSet s cell).1 = 0) ∧
    (∀ s cell, (uint64ValueSet s cell).2 = some .range →
      (uint64ValueSet s cell).1 = 2 ^ 64 - 1) ∧
    (∀ s cell, (uintValueSet s cell).2 = some .parse →
      (uintValueSet s cell).1 = 0) ∧
    (∀ s cell, (uintValueSet s cell).2 = some .range →
      (uintValueSet s cell).1 = 2 ^ intSize - 1) ∧
    (∀ (α : Type) (parsed : α × Option NumErr) (cell : α),
      (float64ValueSet parsed cell).2.isSome →
      (float64ValueSet parsed cell).1 = cell) ∧
    (∀ s cell, (durationValueSet s cell).2.isSome →
      (durationValueSet s cell).1 = cell) := by
  have hint : ∀ (bs : Nat) (s : String) (cell : Int),
      (((parseIntGo bs s.data).1, (parseIntGo bs s.data).2.map numErrorKind).2
          = some .parse →
        ((parseIntGo bs s.data).1,
          (parseIntGo bs s.data).2.map numErrorKind).1 = 0) ∧
      (((parseIntGo bs s.data).1, (parseIntGo bs s.data).2.map numErrorKind).2
          = some .range →
        ((parseIntGo bs s.data).1,
            (parseIntGo bs s.data).2.map numErrorKind).1 = (2 : Int) ^ (bs - 1) - 1 ∨
        ((parseIntGo bs s.data).1,
            (parseIntGo bs s.data).2.map numErrorKind).1 = -((2 : Int) ^ (bs - 1))) := by
    intro bs s cell
    have h := parseIntGo_err_val bs s.data
    constructor
    · intro hp
      match he : (parseIntGo bs s.data).2 with
      | none => rw [he] at hp; cases hp
      | some .syn => exact h.1 he
      | some .range => rw [he] at hp; cases hp
    · intro hp
      match he : (parseIntGo bs s.data).2 with
      | none => rw [he] at hp; cases hp
      | some .syn => rw [he] at hp; cases hp
      | some .range => exact h.2 he
  have huint : ∀ (bs : Nat) (s : String) (cell : Nat),
      (((parseUintGo bs s.data).1, (parseUintGo bs s.data).2.map numErrorKind).2
          = some .parse →
        ((parseUintGo bs s.data).1,
          (parseUintGo bs s.data).2.map numErrorKind).1 = 0) ∧
      (((parseUintGo bs s.data).1, (parseUintGo bs s.data).2.map numErrorKind).2
          = some .range →
        ((parseUintGo bs s.data).1,
          (parseUintGo bs s.data).2.map numErrorKind).1 = 2 ^ bs - 1) := by
    intro bs s cell
    have h := parseUintGo_err_val bs s.data
    constructor
    · intro hp
      match he : (parseUintGo bs s.data).2 with
      | none => rw [he] at hp; cases hp
      | some .syn => exact h.1 he
      | some .range => rw [he] at hp; cases hp
    · intro hp
      match he : (parseUintGo bs s.data).2 with
      | none => rw [he] at hp; cases hp
      | some .syn => rw [he] at hp; cases hp
      | some .range => exact h.2 he
  refine ⟨fun s cell h => ?_, fun s cell => (hint 64 s cell).1,
    fun s cell => (hint 64 s cell).2, fun s cell => (hint intSize s cell).1,
    fun s cell => (hint intSize s cell).2, fun s cell => (huint 64 s cell).1,
    fun s cell => (huint 64 s cell).2, fun s cell => (huint intSize s cell).1,
    fun s cell => (huint intSize s cell).2,
    fun α parsed cell h => ?_, fun s cell h => ?_⟩
  · unfold boolValueSet at h ⊢
    match hp : parseBoolGo s with
    | (v, none) =>
      rw [hp] at h
      exact Bool.noConfusion h
    | (v, some e0) =>
      show v = false
      have hv : parseBoolGo s = (v, some e0) := hp
      unfold parseBoolGo at hv
      split at hv <;> simp_all
  · unfold float64ValueSet at h ⊢
    match hp : parsed with
    | (v, none) => simp at h
    | (v, some e0) => rfl
  · unfold durationValueSet at h ⊢
    match hp : parseDurationGo s.data with
    | none => rfl
    | some v => rw [hp] at h; simp at h

theorem digitsVal_mono (base : Nat) (hb : 1 ≤ base) :
    ∀ (ds : List Char) (n : Nat), n ≤ digitsVal base ds n := by
  intro ds
  induction ds with
  | nil => intro n; simp [digitsVal]
  | cons c cs ih =>
    intro n
    rw [digitsVal]
    by_cases hc : c = '_'
    · rw [if_pos hc]
      exact ih n
    · rw [if_neg hc]
      refine le_trans ?_ (ih _)
      calc n = n * 1 := (Nat.mul_one n).symm
        _ ≤ n * base := Nat.mul_le_mul_left n hb
        _ ≤ n * base + (digitVal c).getD 0 := Nat.le_add_right _ _

theorem baseDetect_base (s : List Char) :
    (baseDetect s).1 = 2 ∨ (baseDetect s).1 = 8 ∨ (baseDetect s).1 = 10 ∨
      (baseDetect s).1 = 16 := by
  unfold baseDetect
  split
  · split
    · simp
    · split
      · simp
      · split
        · simp
        · simp
  · simp
  · simp

/-- Success case of the `ParseUint` digit loop on valid digit strings whose
value fits: the loop returns the grammar value, no error, and the underscore
flag tracks whether an underscore was seen. -/
theorem parseUintLoop_ok (base maxVal cutoff : Nat) (hb : 2 ≤ base)
    (hmax : maxVal ≤ 2 ^ 64 - 1) (hcut : cutoff = (2 ^ 64 - 1) / base + 1) :
    ∀ (ds : List Char) (n : Nat) (us : Bool),
      (∀ c ∈ ds, c = '_' ∨ goodDigit base c = true) →
      digitsVal base ds n ≤ maxVal →
      parseUintLoop base maxVal cutoff ds n us =
        (digitsVal base ds n, none, us || ds.any fun c => c = '_') := by
  intro ds
  induction ds with
  | nil =>
    intro n us hval hle
    simp [parseUintLoop, digitsVal]
  | cons c cs ih =>
    intro n us hval hle
    rw [parseUintLoop]
    by_cases hc : c = '_'
    · rw [if_pos hc]
      rw [digitsVal, if_pos hc] at hle ⊢
      rw [ih n true (fun x hx => hval x (List.mem_cons_of_mem c hx)) hle]
      simp [hc]
    · rw [if_neg hc]
      rcases hval c (List.mem_cons_self c cs) with h | h
      · exact absurd h hc
      · unfold goodDigit at h
        match hdv : digitVal c with
        | none => rw [hdv] at h; cases h
        | some d =>
          rw [hdv] at h
          simp only [decide_eq_true_eq] at h
          simp only [hdv]
          rw [digitsVal, if_neg hc, hdv] at hle
          simp only [Option.getD_some] at hle
          have hmono := digitsVal_mono base (by omega) cs (n * base + d)
          rw [if_neg (by omega)]
          have hnb : n * base + d ≤ maxVal := le_trans hmono hle
          have hncut : ¬ cutoff ≤ n := by
            intro hcn
            have h1 : cutoff * base ≤ n * base :=
              Nat.mul_le_mul_right base hcn
            have h2 : cutoff * base = (2 ^ 64 - 1) / base * base + base := by
              rw [hcut]; ring
            have h3 := Nat.div_add_mod (2 ^ 64 - 1) base
            rw [Nat.mul_comm base ((2 ^ 64 - 1) / base)] at h3
            have h4 := Nat.mod_lt (2 ^ 64 - 1) (show 0 < base by omega)
            omega
          rw [if_neg hncut]
          rw [if_neg (by omega)]
          rw [ih (n * base + d) us (fun x hx => hval x (List.mem_cons_of_mem c hx)) hle]
          rw [digitsVal, if_neg hc, hdv]
          simp [hc]

/-- Overflow case of the `ParseUint` digit loop on valid digit strings whose
value exceeds the width: the loop stops with the clamped maximum and a range
error. -/
theorem parseUintLoop_overflow (base maxVal cutoff : Nat) (hb : 2 ≤ base)
    (hmax : maxVal ≤ 2 ^ 64 - 1) (hcut : cutoff = (2 ^ 64 - 1) / base + 1) :
    ∀ (ds : List Char) (n : Nat) (us : Bool),
      (∀ c ∈ ds, c = '_' ∨ goodDigit base c = true) →
      n ≤ maxVal → maxVal < digitsVal base ds n →
      (parseUintLoop base maxVal cutoff ds n us).1 = maxVal ∧
      (parseUintLoop base maxVal cutoff ds n us).2.1 = some .range := by
  intro ds
  induction ds with
  | nil =>
    intro n us hval hn hover
    rw [digitsVal] at hover
    omega
  | cons c cs ih =>
    intro n us hval hn hover
    rw [parseUintLoop]
    by_cases hc : c = '_'
    · rw [if_pos hc]
      rw [digitsVal, if_pos hc] at hover
      exact ih n true (fun x hx => hval x (List.mem_cons_of_mem c hx)) hn hover
    · rw [if_neg hc]
      rcases hval c (List.mem_cons_self c cs) with h | h
      · exact absurd h hc
      · unfold goodDigit at h
        match hdv : digitVal c with
        | none => rw [hdv] at h; cases h
        | some d =>
          rw [hdv] at h
          simp only [decide_eq_true_eq] at h
          simp only [hdv]
          rw [digitsVal, if_neg hc, hdv] at hover
          simp only [Option.getD_some] at hover
          rw [if_neg (by omega)]
          by_cases hcn : cutoff ≤ n
          · rw [if_pos hcn]
            exact ⟨rfl, rfl⟩
          · rw [if_neg hcn]
            by_cases hov : maxVal < n * base + d
            · rw [if_pos hov]
              exact ⟨rfl, rfl⟩
            · rw [if_neg hov]
              exact ih (n * base + d) us
                (fun x hx => hval x (List.mem_cons_of_mem c hx))
                (by omega) hover

/-- A digit loop that meets an invalid character (not an underscore, not a
digit of the base) never succeeds. -/
theorem parseUintLoop_invalid (base maxVal cutoff : Nat) :
    ∀ (ds : List Char) (n : Nat) (us : Bool),
      (∃ c ∈ ds, c ≠ '_' ∧ goodDigit base c = false) →
      (parseUintLoop base maxVal cutoff ds n us).2.1 ≠ none := by
  intro ds
  induction ds with
  | nil =>
    intro n us h
    simp at h
  | cons c cs ih =>
    intro n us h
    rw [parseUintLoop]
    by_cases hc : c = '_'
    · rw [if_pos hc]
      apply ih
      rcases h with ⟨x, hx, hx1, hx2⟩
      rcases List.mem_cons.mp hx with h1 | h1
      · exact absurd (h1.trans hc) hx1
      · exact ⟨x, h1, hx1, hx2⟩
    · rw [if_neg hc]
      match hdv : digitVal c with
      | none => simp
      | some d =>
        simp only []
        by_cases hd : base ≤ d
        · rw [if_pos hd]
          simp
        · rw [if_neg hd]
          by_cases hcn : cutoff ≤ n
          · rw [if_pos hcn]; simp
          · rw [if_neg hcn]
            by_cases hov : maxVal < n * base + d
            · rw [if_pos hov]; simp
            · rw [if_neg hov]
              apply ih
              rcases h with ⟨x, hx, hx1, hx2⟩
              rcases List.mem_cons.mp hx with h1 | h1
              · subst h1
                unfold goodDigit at hx2
                rw [hdv] at hx2
                simp only [decide_eq_false_iff_not] at hx2
                omega
              · exact ⟨x, h1, hx1, hx2⟩

theorem optionCases {α : Type} (o : Option α) : o = none ∨ ∃ a, o = some a := by
  cases o
  · exact Or.inl rfl
  · exact Or.inr ⟨_, rfl⟩

/-- The underscore flag returned by a successful digit loop records whether
an underscore occurred. -/
theorem parseUintLoop_usFlag (base maxVal cutoff : Nat) :
    ∀ (ds : List Char) (n : Nat) (us : Bool),
      (parseUintLoop base maxVal cutoff ds n us).2.1 = none →
      (parseUintLoop base maxVal cutoff ds n us).2.2 =
        (us || ds.any fun c => c = '_') := by
  intro ds
  induction ds with
  | nil => intro n us _; simp [parseUintLoop]
  | cons c cs ih =>
    intro n us hok
    rw [parseUintLoop] at hok ⊢
    by_cases hc : c = '_'
    · rw [if_pos hc] at hok ⊢
      rw [ih _ _ hok]
      simp [hc]
    · rw [if_neg hc] at hok ⊢
      obtain hdv | ⟨d, hdv⟩ := optionCases (digitVal c)
      · rw [hdv] at hok
        cases hok
      · rw [hdv] at hok ⊢
        simp only [] at hok ⊢
        by_cases hd : base ≤ d
        · rw [if_pos hd] at hok; cases hok
        · rw [if_neg hd] at hok ⊢
          by_cases hcn : cutoff ≤ n
          · rw [if_pos hcn] at hok; cases hok
          · rw [if_neg hcn] at hok ⊢
            by_cases hov : maxVal < n * base + d
            · rw [if_pos hov] at hok; cases hok
            · rw [if_neg hov] at hok ⊢
              rw [ih _ _ hok]
              simp [hc]

theorem underscoreLoop_no_underscore (hex : Bool) :
    ∀ (l : List Char) (saw : Nat), '_' ∉ l → saw ≠ 2 →
      underscoreLoop hex l saw = true := by
  intro l
  induction l with
  | nil =>
    intro saw h1 h2
    simp [underscoreLoop, h2]
  | cons c cs ih =>
    intro saw h1 h2
    rw [underscoreLoop]
    have hc : c ≠ '_' := fun hcc => h1 (by simp [hcc])
    have hcs : '_' ∉ cs := fun hm => h1 (List.mem_cons_of_mem c hm)
    by_cases hd : (48 ≤ c.toNat ∧ c.toNat ≤ 57) ∨
        (hex = true ∧ 97 ≤ lowerNat c.toNat ∧ lowerNat c.toNat ≤ 102)
    · rw [if_pos hd]
      exact ih 1 hcs (by omega)
    · rw [if_neg hd, if_neg hc, if_neg (by simpa using h2)]
      exact ih 3 hcs (by omega)

theorem usSkipSign_subset (s : List Char) (x : Char) :
    x ∈ usSkipSign s → x ∈ s := by
  unfold usSkipSign
  match s with
  | [] => exact fun h => h
  | c :: cs =>
    simp only []
    split
    · exact fun h => List.mem_cons_of_mem c h
    · exact fun h => h

theorem usAfterSign_subset (l : List Char) (x : Char) :
    x ∈ (usAfterSign l).2.1 → x ∈ l := by
  unfold usAfterSign
  match l with
  | [] => exact fun h => h
  | [c0] => exact fun h => h
  | c0 :: c1 :: rest =>
    simp only []
    split
    · exact fun h => List.mem_cons_of_mem c0 (List.mem_cons_of_mem c1 h)
    · exact fun h => h

theorem usAfterSign_saw (l : List Char) : (usAfterSign l).2.2 ≠ 2 := by
  unfold usAfterSign
  match l with
  | [] => simp
  | [c0] => simp
  | c0 :: c1 :: rest =>
    simp only []
    split <;> simp

theorem underscoreOK_no_underscore (s : List Char) (h : '_' ∉ s) :
    underscoreOK s = true := by
  unfold underscoreOK
  apply underscoreLoop_no_underscore
  · intro hx
    exact h (usSkipSign_subset s '_' (usAfterSign_subset (usSkipSign s) '_' hx))
  · exact usAfterSign_saw (usSkipSign s)

theorem baseDetect_underscore (s : List Char) (h : '_' ∈ s) :
    '_' ∈ (baseDetect s).2 := by
  rw [baseDetect.eq_def]
  split
  · rename_i c1 rest
    simp only [List.mem_cons] at h
    have h1 : '_' = c1 → lowerNat c1.toNat = 127 := by
      intro hh
      rw [← hh]
      decide
    rcases h with h0 | hc1 | hr
    · exact absurd h0 (by decide)
    · split
      · rename_i hsp
        exact absurd (h1 hc1) (by omega)
      · split
        · rename_i hsp
          exact absurd (h1 hc1) (by omega)
        · split
          · rename_i hsp
            exact absurd (h1 hc1) (by omega)
          · exact List.mem_cons.mpr (Or.inl hc1)
    · split
      · exact hr
      · split
        · exact hr
        · split
          · exact hr
          · exact List.mem_cons_of_mem c1 hr
  · simp at h
  · exact h

/-- `ParseUint(_, 0, 64)` on a well-formed literal: the grammar value when it
fits 64 bits, otherwise the clamped maximum with a range error. -/
theorem parseUintGo64_wf (s : List Char) (hwf : wellFormedUint s = true) :
    (uintGrammarVal s ≤ 2 ^ 64 - 1 →
      parseUintGo 64 s = (uintGrammarVal s, none)) ∧
    (2 ^ 64 - 1 < uintGrammarVal s →
      parseUintGo 64 s = (2 ^ 64 - 1, some .range)) := by
  unfold wellFormedUint at hwf
  simp only [Bool.and_eq_true, decide_eq_true_eq, List.all_eq_true] at hwf
  obtain ⟨⟨hne, hall⟩, hund⟩ := hwf
  have hbase := baseDetect_base s
  have hb : 2 ≤ (baseDetect s).1 := by rcases hbase with h | h | h | h <;> omega
  have hvalid : ∀ c ∈ (baseDetect s).2,
      c = '_' ∨ goodDigit (baseDetect s).1 c = true := by
    intro c hcm
    have hcc := hall c hcm
    simp only [Bool.or_eq_true, decide_eq_true_eq] at hcc
    exact hcc.symm
  constructor
  · intro hle
    have hloop := parseUintLoop_ok (baseDetect s).1 (2 ^ 64 - 1)
      ((2 ^ 64 - 1) / (baseDetect s).1 + 1) hb (Nat.le_refl _) rfl
      (baseDetect s).2 0 false hvalid hle
    unfold parseUintGo
    rw [if_neg hne]
    simp only []
    rw [hloop]
    simp [hund, uintGrammarVal]
  · intro hgt
    have hloop := parseUintLoop_overflow (baseDetect s).1 (2 ^ 64 - 1)
      ((2 ^ 64 - 1) / (baseDetect s).1 + 1) hb (Nat.le_refl _) rfl
      (baseDetect s).2 0 false hvalid (by omega) hgt
    unfold parseUintGo
    rw [if_neg hne]
    simp only []
    match hr : parseUintLoop (baseDetect s).1 (2 ^ 64 - 1)
        ((2 ^ 64 - 1) / (baseDetect s).1 + 1) (baseDetect s).2 0 false with
    | (n, none, us) =>
      rw [hr] at hloop
      simp at hloop
    | (n, some e0, us) =>
      rw [hr] at hloop
      simp only [] at hloop
      simp [hloop.1, hloop.2]

/-- `ParseUint(_, 0, 64)` rejects every malformed text with some error. -/
theorem parseUintGo64_malformed (s : List Char)
    (hwf : wellFormedUint s = false) : (parseUintGo 64 s).2 ≠ none := by
  by_cases hne : s = []
  · subst hne
    simp [parseUintGo]
  · unfold wellFormedUint at hwf
    simp only [Bool.and_eq_false_iff, decide_eq_false_iff_not, not_not,
      List.all_eq_false] at hwf
    unfold parseUintGo
    rw [if_neg hne]
    simp only []
    rcases hwf with (hwf | ⟨c, hcm, hcv⟩) | hund
    · exact absurd hwf hne
    · have hcv2 : c ≠ '_' ∧ goodDigit (baseDetect s).1 c = false := by
        simp only [Bool.or_eq_true, decide_eq_true_eq, not_or,
          Bool.not_eq_true] at hcv
        exact ⟨hcv.2, hcv.1⟩
      have hinv : (parseUintLoop (baseDetect s).1 (2 ^ 64 - 1)
          ((2 ^ 64 - 1) / (baseDetect s).1 + 1) (baseDetect s).2 0 false).2.1 ≠
          none := by
        apply parseUintLoop_invalid
        exact ⟨c, hcm, hcv2.1, hcv2.2⟩
      match hr : parseUintLoop (baseDetect s).1 (2 ^ 64 - 1)
          ((2 ^ 64 - 1) / (baseDetect s).1 + 1) (baseDetect s).2 0 false with
      | (n, none, us) =>
        rw [hr] at hinv
        simp at hinv
      | (n, some e0, us) => simp
    · have hbase := baseDetect_base s
      have hb : 2 ≤ (baseDetect s).1 := by rcases hbase with h | h | h | h <;> omega
      by_cases hval : ∀ c ∈ (baseDetect s).2,
          c = '_' ∨ goodDigit (baseDetect s).1 c = true
      · by_cases hle : digitsVal (baseDetect s).1 (baseDetect s).2 0 ≤ 2 ^ 64 - 1
        · have hloop := parseUintLoop_ok (baseDetect s).1 (2 ^ 64 - 1)
            ((2 ^ 64 - 1) / (baseDetect s).1 + 1) hb (Nat.le_refl _) rfl
            (baseDetect s).2 0 false hval hle
          rw [hloop]
          simp only [Bool.false_or]
          have hus : ((baseDetect s).2.any fun c => c = '_') = true := by
            by_cases h : ((baseDetect s).2.any fun c => decide (c = '_')) = true
            · exact h
            · exfalso
              have hno : '_' ∉ s := by
                intro hmem
                have hmem2 := baseDetect_underscore s hmem
                exact h (List.any_eq_true.mpr ⟨'_', hmem2, by simp⟩)
              rw [underscoreOK_no_underscore s hno] at hund
              cases hund
          rw [hus, hund]
          simp
        · have hloop := parseUintLoop_overflow (baseDetect s).1 (2 ^ 64 - 1)
            ((2 ^ 64 - 1) / (baseDetect s).1 + 1) hb (Nat.le_refl _) rfl
            (baseDetect s).2 0 false hval (by omega) (by omega)
          match hr : parseUintLoop (baseDetect s).1 (2 ^ 64 - 1)
              ((2 ^ 64 - 1) / (baseDetect s).1 + 1) (baseDetect s).2 0 false with
          | (n, none, us) =>
            rw [hr] at hloop
            simp at hloop
          | (n, some e0, us) => simp
      · push_neg at hval
        obtain ⟨c, hcm, hc1, hc2⟩ := hval
        have hinv : (parseUintLoop (baseDetect s).1 (2 ^ 64 - 1)
            ((2 ^ 64 - 1) / (baseDetect s).1 + 1) (baseDetect s).2 0 false).2.1 ≠
            none := by
          apply parseUintLoop_invalid
          exact ⟨c, hcm, hc1, by simpa using hc2⟩
        match hr : parseUintLoop (baseDetect s).1 (2 ^ 64 - 1)
            ((2 ^ 64 - 1) / (baseDetect s).1 + 1) (baseDetect s).2 0 false with
        | (n, none, us) =>
          rw [hr] at hinv
          simp at hinv
        | (n, some e0, us) => simp

theorem wellFormedInt_ne_nil (s : List Char) (hwf : wellFormedInt s = true) :
    s ≠ [] := by
  intro h
  subst h
  simp [wellFormedInt, stripSign, wellFormedUint] at hwf

/-- `ParseInt(_, 0, 64)` on a well-formed signed literal: the grammar value
when it fits 64 bits, otherwise the nearest bound with a range error. -/
theorem parseIntGo64_wf (s : List Char) (hwf : wellFormedInt s = true) :
    (-(2 ^ 63) ≤ intGrammarVal s → intGrammarVal s ≤ 2 ^ 63 - 1 →
      parseIntGo 64 s = (intGrammarVal s, none)) ∧
    (2 ^ 63 - 1 < intGrammarVal s →
      parseIntGo 64 s = ((2 : Int) ^ 63 - 1, some .range)) ∧
    (intGrammarVal s < -(2 ^ 63) →
      parseIntGo 64 s = (-((2 : Int) ^ 63), some .range)) := by
  have hne := wellFormedInt_ne_nil s hwf
  have hu := parseUintGo64_wf (stripSign s).2 hwf
  cases hn : (stripSign s).1 with
  | false =>
    have hval : intGrammarVal s = (uintGrammarVal (stripSign s).2 : Int) := by
      rw [intGrammarVal, hn]
      simp
    refine ⟨fun hlo hhi => ?_, fun hgt => ?_, fun hlt => ?_⟩
    · rw [hval] at hhi
      have hule : uintGrammarVal (stripSign s).2 ≤ 2 ^ 64 - 1 := by omega
      have hq := hu.1 hule
      unfold parseIntGo
      rw [if_neg hne]
      simp only [hq, hn]
      rw [if_neg (by simp; omega)]
      rw [if_neg (by simp)]
      simp [hval]
    · rw [hval] at hgt
      unfold parseIntGo
      rw [if_neg hne]
      by_cases hule : uintGrammarVal (stripSign s).2 ≤ 2 ^ 64 - 1
      · have hq := hu.1 hule
        simp only [hq, hn]
        rw [if_pos (by simp; omega)]
        norm_num
      · have hq := hu.2 (by omega)
        simp only [hq, hn]
        rw [if_pos (by simp)]
        norm_num
    · rw [hval] at hlt
      have := uintGrammarVal (stripSign s).2
      omega
  | true =>
    have hval : intGrammarVal s = -(uintGrammarVal (stripSign s).2 : Int) := by
      rw [intGrammarVal, hn]
      simp
    refine ⟨fun hlo hhi => ?_, fun hgt => ?_, fun hlt => ?_⟩
    · rw [hval] at hlo
      have hule : uintGrammarVal (stripSign s).2 ≤ 2 ^ 64 - 1 := by omega
      have hq := hu.1 hule
      unfold parseIntGo
      rw [if_neg hne]
      simp only [hq, hn]
      rw [if_neg (by simp)]
      rw [if_neg (by simp; omega)]
      simp [hval]
    · rw [hval] at hgt
      omega
    · rw [hval] at hlt
      unfold parseIntGo
      rw [if_neg hne]
      by_cases hule : uintGrammarVal (stripSign s).2 ≤ 2 ^ 64 - 1
      · have hq := hu.1 hule
        simp only [hq, hn]
        rw [if_neg (by simp)]
        rw [if_pos (by simp; omega)]
        norm_num
      · have hq := hu.2 (by omega)
        simp only [hq, hn]
        rw [if_neg (by simp)]
        rw [if_pos (by simp)]
        norm_num

/-- `ParseInt(_, 0, 64)` rejects every malformed signed text with some
error. -/
theorem parseIntGo64_malformed (s : List Char)
    (hwf : wellFormedInt s = false) : (parseIntGo 64 s).2 ≠ none := by
  by_cases hne : s = []
  · subst hne
    simp [parseIntGo]
  · have hu := parseUintGo64_malformed (stripSign s).2 hwf
    unfold parseIntGo
    rw [if_neg hne]
    simp only []
    match hq : (parseUintGo 64 (stripSign s).2).2 with
    | none => exact absurd hq hu
    | some .syn => simp
    | some .range =>
      have hval : (parseUintGo 64 (stripSign s).2).1 = 2 ^ 64 - 1 :=
        (parseUintGo_err_val 64 (stripSign s).2).2 hq
      rw [hval]
      cases hn : (stripSign s).1
      · rw [if_pos (by norm_num)]
        simp
      · rw [if_neg (by simp)]
        rw [if_pos (by norm_num)]
        simp

theorem stringAppendLeftCancel (a b c : String) (h : a ++ b = a ++ c) :
    b = c := by
  have hd := congrArg String.data h
  rw [String.data_append, String.data_append] at hd
  have h2 := List.append_cancel_left hd
  cases b
  cases c
  exact congrArg String.mk h2

theorem failfMsg_parse_ne_range (value name : String) :
    failfMsg value name .parse ≠ failfMsg value name .range := by
  intro h
  have h2 := stringAppendLeftCancel _ _ _ h
  exact absurd h2 (by decide)

/-- On a failing `Set`, the error `parseOne` returns carries the `failfMsg`
diagnostic, whose tail is the text of the underlying sentinel. -/
theorem parseEntry_fail_msg (e : EnvSet) (s : String) (spec : Spec)
    (err : SetError)
    (hnh : ¬ ((cutEq s).1 = "HELP" ∨ (cutEq s).1 = "H"))
    (hlf : lookupFormal e.formal (cutEq s).1 = some spec)
    (hsv : (valSet spec.value (cutEq s).2).2 = some err) :
    (parseEntry e s).2.1 =
      some (.failure (failfMsg (cutEq s).2 (cutEq s).1 err)) := by
  simp only [parseEntry]
  rw [if_neg hnh, hlf]
  simp only [hsv]
  rfl

/-- Claim C2, counterexample: the text `99999999999999999999x` is malformed
(the trailing `x` is not a digit), yet `uint64Value.Set` reports a
range-kind failure, not a parse-kind one, because the leading digits
overflow before the bad character is reached. -/
theorem claim2_cex :
    wellFormedUint ("99999999999999999999x".data) = false ∧
    uint64ValueSet "99999999999999999999x" 0 = (2 ^ 64 - 1, some .range) := by
  constructor
  · decide
  · decide

/-- Claim C2, amended: for the integer kinds, well-formed in-range text
parses to its value; well-formed out-of-range text is a range-kind failure
with the clamped bound; malformed text is a parse-kind or range-kind failure
(range-kind when the digits preceding the malformation already overflow, as
the counterexample shows); `int`/`uint` behave as their 64-bit variants; and
the failure kinds stay distinguishable through `Parse` under
`ContinueOnError`, because the returned error's message embeds the sentinel
text and the two texts differ. -/
theorem claim2_amended :
    (∀ (s : String) (cell : Nat), wellFormedUint s.data = true →
      uintGrammarVal s.data ≤ 2 ^ 64 - 1 →
      uint64ValueSet s cell = (uintGrammarVal s.data, none)) ∧
    (∀ (s : String) (cell : Nat), wellFormedUint s.data = true →
      2 ^ 64 - 1 < uintGrammarVal s.data →
      uint64ValueSet s cell = (2 ^ 64 - 1, some .range)) ∧
    (∀ (s : String) (cell : Nat), wellFormedUint s.data = false →
      (uint64ValueSet s cell).2 = some .parse ∨
      (uint64ValueSet s cell).2 = some .range) ∧
    (∀ (s : String) (cell : Nat), uintValueSet s cell = uint64ValueSet s cell) ∧
    (∀ (s : String) (cell : Int), wellFormedInt s.data = true →
      -(2 ^ 63) ≤ intGrammarVal s.data → intGrammarVal s.data ≤ 2 ^ 63 - 1 →
      int64ValueSet s cell = (intGrammarVal s.data, none)) ∧
    (∀ (s : String) (cell : Int), wellFormedInt s.data = true →
      2 ^ 63 - 1 < intGrammarVal s.data →
      int64ValueSet s cell = ((2 : Int) ^ 63 - 1, some .range)) ∧
    (∀ (s : String) (cell : Int), wellFormedInt s.data = true →
      intGrammarVal s.data < -(2 ^ 63) →
      int64ValueSet s cell = (-((2 : Int) ^ 63), some .range)) ∧
    (∀ (s : String) (cell : Int), wellFormedInt s.data = false →
      (int64ValueSet s cell).2 = some .parse ∨
      (int64ValueSet s cell).2 = some .range) ∧
    (∀ (s : String) (cell : Int), intValueSet s cell = int64ValueSet s cell) ∧
    (∀ (e : EnvSet) (s : String) (spec : Spec) (err : SetError),
      ¬ ((cutEq s).1 = "HELP" ∨ (cutEq s).1 = "H") →
      lookupFormal e.formal (cutEq s).1 = some spec →
      (valSet spec.value (cutEq s).2).2 = some err →
      (parseEntry e s).2.1 =
        some (.failure (failfMsg (cutEq s).2 (cutEq s).1 err))) ∧
    (∀ value name, failfMsg value name .parse ≠ failfMsg value name .range) := by
  refine ⟨fun s cell hwf hle => ?_, fun s cell hwf hgt => ?_,
    fun s cell hwf => ?_, fun s cell => rfl,
    fun s cell hwf hlo hhi => ?_, fun s cell hwf hgt => ?_,
    fun s cell hwf hlt => ?_, fun s cell hwf => ?_, fun s cell => rfl,
    parseEntry_fail_msg, failfMsg_parse_ne_range⟩
  · unfold uint64ValueSet
    rw [(parseUintGo64_wf s.data hwf).1 hle]
    rfl
  · unfold uint64ValueSet
    rw [(parseUintGo64_wf s.data hwf).2 hgt]
    rfl
  · unfold uint64ValueSet
    have h := parseUintGo64_malformed s.data hwf
    match hq : (parseUintGo 64 s.data).2 with
    | none => exact absurd hq h
    | some .syn => simp [hq, numErrorKind]
    | some .range => simp [hq, numErrorKind]
  · unfold int64ValueSet
    rw [(parseIntGo64_wf s.data hwf).1 hlo hhi]
    rfl
  · unfold int64ValueSet
    rw [(parseIntGo64_wf s.data hwf).2.1 hgt]
    rfl
  · unfold int64ValueSet
    rw [(parseIntGo64_wf s.data hwf).2.2 hlt]
    rfl
  · unfold int64ValueSet
    have h := parseIntGo64_malformed s.data hwf
    match hq : (parseIntGo 64 s.data).2 with
    | none => exact absurd hq h
    | some .syn => simp [hq, numErrorKind]
    | some .range => simp [hq, numErrorKind]

/-- Claim C2, witness: the amended characterization on concrete inputs —
an in-range parse, an out-of-range range failure, a malformed parse-or-range
failure, and the distinguishable message pair. -/
theorem claim2_witness :
    uint64ValueSet "8080" 0 = (8080, none) ∧
    uint64ValueSet "99999999999999999999" 0 = (2 ^ 64 - 1, some .range) ∧
    ((uint64ValueSet "zz" 0).2 = some .parse ∨
      (uint64ValueSet "zz" 0).2 = some .range) ∧
    int64ValueSet "-9223372036854775809" 0 = (-((2 : Int) ^ 63), some .range) ∧
    failfMsg "zz" "PORT" .parse ≠ failfMsg "zz" "PORT" .range := by
  refine ⟨?_, ?_, ?_, ?_, ?_⟩
  · have h := claim2_amended.1 "8080" 0 (by decide) (by decide)
    rw [h]
    rfl
  · exact claim2_amended.2.1 "99999999999999999999" 0 (by decide) (by decide)
  · exact claim2_amended.2.2.1 "zz" 0 (by decide)
  · exact claim2_amended.2.2.2.2.2.2.1 "-9223372036854775809" 0 (by decide)
      (by decide)
  · exact claim2_amended.2.2.2.2.2.2.2.2.2.2 "zz" "PORT"

/-! ### Claim C7: Set / String round trips -/

theorem natDigitsAux_append : ∀ (n : Nat) (acc : List Char),
    natDigitsAux n acc = natDigitsAux n [] ++ acc := by
  intro n
  induction n using Nat.strong_induction_on with
  | _ n ih =>
    intro acc
    rw [natDigitsAux_step, natDigitsAux_step n []]
    by_cases hn : n = 0
    · simp [hn]
    · rw [if_neg hn, if_neg hn]
      have hlt : n / 10 < n :=
        Nat.div_lt_self (Nat.pos_of_ne_zero hn) (by decide)
      rw [ih _ hlt, ih _ hlt [Char.ofNat (48 + n % 10)]]
      simp

theorem natDigitsAux_digits : ∀ (n : Nat), ∀ c ∈ natDigitsAux n [],
    48 ≤ c.toNat ∧ c.toNat ≤ 57 := by
  intro n
  induction n using Nat.strong_induction_on with
  | _ n ih =>
    intro c hc
    rw [natDigitsAux_step] at hc
    by_cases hn : n = 0
    · rw [if_pos hn] at hc
      simp at hc
    · rw [if_neg hn, natDigitsAux_append] at hc
      rcases List.mem_append.mp hc with h | h
      · exact ih _ (Nat.div_lt_self (Nat.pos_of_ne_zero hn) (by decide)) c h
      · have hd : c = Char.ofNat (48 + n % 10) := by simpa using h
        subst hd
        have hm : n % 10 < 10 := Nat.mod_lt n (by decide)
        interval_cases h : n % 10 <;> simp_all <;> decide

theorem natDigitsAux_head : ∀ (n : Nat), 0 < n → ∀ (acc : List Char),
    ∃ c cs, natDigitsAux n acc = c :: cs ∧ 49 ≤ c.toNat ∧ c.toNat ≤ 57 := by
  intro n
  induction n using Nat.strong_induction_on with
  | _ n ih =>
    intro hn acc
    rw [natDigitsAux_step, if_neg (by omega)]
    by_cases h10 : n < 10
    · rw [natDigitsAux_step, if_pos (by omega)]
      refine ⟨Char.ofNat (48 + n % 10), acc, rfl, ?_⟩
      have : n % 10 = n := Nat.mod_eq_of_lt h10
      interval_cases n <;> simp_all <;> decide
    · have hpos : 0 < n / 10 := Nat.div_pos (by omega) (by decide)
      exact ih (n / 10) (Nat.div_lt_self (by omega) (by decide)) hpos _

theorem digitVal_ofNat (d : Nat) (hd : d < 10) :
    digitVal (Char.ofNat (48 + d)) = some d := by
  interval_cases d <;> decide

theorem digitsVal_eval : ∀ (n : Nat) (acc : List Char),
    digitsVal 10 (natDigitsAux n acc) 0 = digitsVal 10 acc n := by
  intro n
  induction n using Nat.strong_induction_on with
  | _ n ih =>
    intro acc
    rw [natDigitsAux_step]
    by_cases hn : n = 0
    · simp [hn]
    · rw [if_neg hn]
      rw [ih _ (Nat.div_lt_self (Nat.pos_of_ne_zero hn) (by decide))]
      rw [digitsVal]
      have hne : Char.ofNat (48 + n % 10) ≠ '_' := by
        have hm : n % 10 < 10 := Nat.mod_lt n (by decide)
        interval_cases h : n % 10 <;> decide
      rw [if_neg hne, digitVal_ofNat (n % 10) (Nat.mod_lt n (by decide))]
      simp only [Option.getD_some]
      congr 1
      have := Nat.div_add_mod n 10
      omega

theorem goodDigit10 (c : Char) (h1 : 48 ≤ c.toNat) (h2 : c.toNat ≤ 57) :
    goodDigit 10 c = true ∧ c ≠ '_' := by
  have hdv : digitVal c = some (c.toNat - 48) := by
    unfold digitVal
    rw [if_pos ⟨h1, h2⟩]
  constructor
  · unfold goodDigit
    rw [hdv]
    simp
    omega
  · intro hc
    rw [hc] at h2
    exact absurd h2 (by decide)

theorem baseDetect_decimal (c : Char) (cs : List Char) (hc : c ≠ '0') :
    baseDetect (c :: cs) = (10, c :: cs) := by
  rw [baseDetect.eq_def]
  split
  · rename_i c1 rest heq
    injection heq with h1 h2
    exact absurd h1 hc
  · rename_i heq
    injection heq with h1 h2
    exact absurd h1 hc
  · rfl

theorem formatUintDec_ne_nil (n : Nat) : formatUintDec n ≠ [] := by
  unfold formatUintDec
  by_cases h0 : n = 0
  · rw [if_pos h0]
    simp
  · rw [if_neg h0]
    obtain ⟨c, cs, heq, _, _⟩ := natDigitsAux_head n (Nat.pos_of_ne_zero h0) []
    rw [heq]
    simp

/-- Round trip of the decimal rendering through `ParseUint(_, 0, 64)`. -/
theorem formatUintDec_roundtrip (n : Nat) (hn : n ≤ 2 ^ 64 - 1) :
    parseUintGo 64 (formatUintDec n) = (n, none) := by
  by_cases h0 : n = 0
  · subst h0
    decide
  · have hpos : 0 < n := Nat.pos_of_ne_zero h0
    have hfu : formatUintDec n = natDigitsAux n [] := by
      unfold formatUintDec
      rw [if_neg h0]
    obtain ⟨c, cs, heq, hc1, hc2⟩ := natDigitsAux_head n hpos []
    have hdigits := natDigitsAux_digits n
    have hbd : baseDetect (formatUintDec n) = (10, formatUintDec n) := by
      rw [hfu, heq]
      apply baseDetect_decimal
      intro hcc
      rw [hcc] at hc1
      exact absurd hc1 (by decide)
    have hvalid : ∀ x ∈ formatUintDec n, x = '_' ∨ goodDigit 10 x = true := by
      intro x hx
      rw [hfu] at hx
      have hxx := hdigits x hx
      exact Or.inr (goodDigit10 x hxx.1 hxx.2).1
    have hval : digitsVal 10 (formatUintDec n) 0 = n := by
      rw [hfu, digitsVal_eval n []]
      rfl
    have hnous : ((formatUintDec n).any fun c => c = '_') = false := by
      rw [List.any_eq_false]
      intro x hx
      rw [hfu] at hx
      have hd := hdigits x hx
      intro hxx
      simp at hxx
      rw [hxx] at hd
      exact absurd hd.2 (by decide)
    unfold parseUintGo
    rw [if_neg (formatUintDec_ne_nil n)]
    simp only [hbd]
    rw [parseUintLoop_ok 10 (2 ^ 64 - 1) ((2 ^ 64 - 1) / 10 + 1) (by decide)
      (Nat.le_refl _) rfl (formatUintDec n) 0 false hvalid (by rw [hval]; exact hn)]
    rw [hval, hnous]
    simp

theorem parseUintLoop_ok_le (base maxVal cutoff : Nat) :
    ∀ (ds : List Char) (n : Nat) (us : Bool) (v : Nat) (us2 : Bool),
      parseUintLoop base maxVal cutoff ds n us = (v, none, us2) →
      n ≤ maxVal → v ≤ maxVal := by
  intro ds
  induction ds with
  | nil =>
    intro n us v us2 h hn
    rw [parseUintLoop] at h
    injection h with h1 h2
    omega
  | cons c cs ih =>
    intro n us v us2 h hn
    rw [parseUintLoop] at h
    split at h
    · exact ih _ _ _ _ h hn
    · obtain hdv | ⟨d, hdv⟩ := optionCases (digitVal c)
      · rw [hdv] at h
        simp at h
      · rw [hdv] at h
        simp only [] at h
        split at h
        · simp at h
        · split at h
          · simp at h
          · split at h
            · simp at h
            · rename_i hov
              exact ih _ _ _ _ h (by omega)

theorem parseUintGo_ok_le (bitSize : Nat) (s : List Char)
    (h : (parseUintGo bitSize s).2 = none) :
    (parseUintGo bitSize s).1 ≤ 2 ^ bitSize - 1 := by
  unfold parseUintGo at h ⊢
  split at h
  · simp at h
  · rename_i hne
    rw [if_neg hne]
    simp only [] at h ⊢
    split at h
    · rename_i n us hl
      split at h
      · simp at h
      · rename_i hcond
        rw [if_neg hcond]
        exact parseUintLoop_ok_le _ _ _ _ _ _ _ _ hl (by omega)
    · simp at h

theorem parseIntGo_ok_bounds (s : List Char)
    (h : (parseIntGo 64 s).2 = none) :
    -(2 ^ 63) ≤ (parseIntGo 64 s).1 ∧ (parseIntGo 64 s).1 ≤ 2 ^ 63 - 1 := by
  unfold parseIntGo at h ⊢
  split at h
  · simp at h
  · rename_i hne
    rw [if_neg hne]
    simp only [] at h ⊢
    obtain hq | ⟨e0, hq⟩ := optionCases (parseUintGo 64 (stripSign s).2).2
    · rw [hq] at h ⊢
      simp only [] at h ⊢
      split at h
      · simp at h
      · split at h
        · simp at h
        · rename_i hA hB
          rw [if_neg hA, if_neg hB]
          cases hn : (stripSign s).1
          · rw [hn] at hA
            simp only [Bool.false_eq_true, not_false_iff, true_and,
              not_le] at hA
            simp only [Bool.false_eq_true, if_false]
            constructor <;> simp <;> omega
          · rw [hn] at hB
            simp only [true_and, not_lt] at hB
            simp only [if_pos rfl]
            constructor <;> simp <;> omega
    · cases e0
      · rw [hq] at h
        simp at h
      · rw [hq] at h ⊢
        simp only [] at h ⊢
        split at h
        · simp at h
        · split at h
          · simp at h
          · rename_i hA hB
            rw [if_neg hA, if_neg hB]
            cases hn : (stripSign s).1
            · rw [hn] at hA
              simp only [Bool.false_eq_true, not_false_iff, true_and,
                not_le] at hA
              simp only [Bool.false_eq_true, if_false]
              constructor <;> simp <;> omega
            · rw [hn] at hB
              simp only [true_and, not_lt] at hB
              simp only [if_pos rfl]
              constructor <;> simp <;> omega

/-- Claim C10, witness: concrete failing `Set` calls for each behavior. -/
theorem claim10_witness :
    (boolValueSet "zz" true).1 = false ∧
    ((int64ValueSet "9223372036854775808" 7).1 = 2 ^ 63 - 1 ∨
      (int64ValueSet "9223372036854775808" 7).1 = -(2 ^ 63)) ∧
    (uint64ValueSet "99999999999999999999" 7).1 = 2 ^ 64 - 1 ∧
    (float64ValueSet ((0 : Int), some NumErr.syn) 42).1 = 42 ∧
    (durationValueSet "x" 5).1 = 5 :=
  ⟨claim10_set_atomicity.1 "zz" true (by decide),
   claim10_set_atomicity.2.2.1 "9223372036854775808" 7 (by decide),
   claim10_set_atomicity.2.2.2.2.2.2.1 "99999999999999999999" 7 (by decide),
   claim10_set_atomicity.2.2.2.2.2.2.2.2.2.1 Int ((0 : Int), some NumErr.syn) 42
     (by decide),
   claim10_set_atomicity.2.2.2.2.2.2.2.2.2.2 "x" 5 (by decide)⟩

/-! ### Claim C7 continued: duration round-trip machinery -/

theorem digitVal_dec (c : Char) (h1 : 48 ≤ c.toNat) (h2 : c.toNat ≤ 57) :
    digitVal c = some (c.toNat - 48) := by
  unfold digitVal
  rw [if_pos ⟨h1, h2⟩]

theorem digit_ne_underscore (c : Char) (h2 : c.toNat ≤ 57) : c ≠ '_' := by
  intro hc
  rw [hc] at h2
  exact absurd h2 (by decide)

theorem digitsVal_digit_cons (c : Char) (cs : List Char) (n : Nat)
    (h1 : 48 ≤ c.toNat) (h2 : c.toNat ≤ 57) :
    digitsVal 10 (c :: cs) n = digitsVal 10 cs (n * 10 + (c.toNat - 48)) := by
  rw [digitsVal, if_neg (digit_ne_underscore c h2), digitVal_dec c h1 h2]
  rfl

theorem digitsVal_append (base : Nat) : ∀ (ds es : List Char) (n : Nat),
    digitsVal base (ds ++ es) n = digitsVal base es (digitsVal base ds n) := by
  intro ds
  induction ds with
  | nil => intro es n; rfl
  | cons c cs ih =>
    intro es n
    rw [List.cons_append, digitsVal, digitsVal]
    exact ih es _

theorem formatUintDec_digits (n : Nat) : ∀ c ∈ formatUintDec n,
    48 ≤ c.toNat ∧ c.toNat ≤ 57 := by
  intro c hc
  unfold formatUintDec at hc
  by_cases h0 : n = 0
  · rw [if_pos h0] at hc
    have : c = '0' := by simpa using hc
    subst this
    decide
  · rw [if_neg h0] at hc
    exact natDigitsAux_digits n c hc

theorem formatUintDec_val (n : Nat) :
    digitsVal 10 (formatUintDec n) 0 = n := by
  unfold formatUintDec
  by_cases h0 : n = 0
  · rw [if_pos h0, h0]
    decide
  · rw [if_neg h0]
    rw [digitsVal_eval n []]
    rfl

theorem formatUintDec_head (n : Nat) : ∃ c cs, formatUintDec n = c :: cs ∧
    48 ≤ c.toNat ∧ c.toNat ≤ 57 := by
  unfold formatUintDec
  by_cases h0 : n = 0
  · rw [if_pos h0]
    exact ⟨'0', [], rfl, by decide, by decide⟩
  · rw [if_neg h0]
    obtain ⟨c, cs, heq, hc1, hc2⟩ :=
      natDigitsAux_head n (Nat.pos_of_ne_zero h0) []
    exact ⟨c, cs, heq, by omega, hc2⟩

theorem ofNat_digit_toNat (d : Nat) (hd : d < 10) :
    (Char.ofNat (48 + d)).toNat = 48 + d := by
  interval_cases d <;> decide

theorem leadingIntLoop_digits : ∀ (ds : List Char) (rest : List Char) (x : Nat),
    DigitChars ds → NonDigitHead rest → digitsVal 10 ds x ≤ 2 ^ 63 →
    leadingIntLoop (ds ++ rest) x = some (digitsVal 10 ds x, rest) := by
  intro ds
  induction ds with
  | nil =>
    intro rest x _ hrest _
    match rest with
    | [] => rfl
    | c :: cs =>
      have hr : c.toNat < 48 ∨ 57 < c.toNat := hrest
      simp only [List.nil_append, leadingIntLoop]
      rw [if_pos hr]
      rfl
  | cons c cs ih =>
    intro rest x hds hrest hle
    have hc := hds c (by simp)
    have hv : digitsVal 10 (c :: cs) x = digitsVal 10 cs (x * 10 + (c.toNat - 48)) :=
      digitsVal_digit_cons c cs x hc.1 hc.2
    rw [hv] at hle ⊢
    have hmono : x * 10 + (c.toNat - 48) ≤ digitsVal 10 cs (x * 10 + (c.toNat - 48)) :=
      digitsVal_mono 10 (by decide) cs _
    simp only [List.cons_append, leadingIntLoop]
    rw [if_neg (by omega), if_neg (by omega), if_neg (by omega)]
    exact ih rest _ (fun d hd => hds d (by simp [hd])) hrest hle

theorem leadingFractionLoop_digits :
    ∀ (ds : List Char) (rest : List Char) (x scale : Nat),
    DigitChars ds → NonDigitHead rest → digitsVal 10 ds x ≤ 2 ^ 63 - 1 →
    leadingFractionLoop (ds ++ rest) x scale false =
      (digitsVal 10 ds x, scale * 10 ^ ds.length, rest) := by
  intro ds
  induction ds with
  | nil =>
    intro rest x scale _ hrest _
    match rest with
    | [] =>
      show (x, scale, ([] : List Char)) = (x, scale * 10 ^ 0, [])
      norm_num
    | c :: cs =>
      have hr : c.toNat < 48 ∨ 57 < c.toNat := hrest
      simp only [List.nil_append, leadingFractionLoop]
      rw [if_pos hr]
      show (x, scale, c :: cs) = (x, scale * 10 ^ 0, c :: cs)
      norm_num
  | cons c cs ih =>
    intro rest x scale hds hrest hle
    have hc := hds c (by simp)
    have hv : digitsVal 10 (c :: cs) x = digitsVal 10 cs (x * 10 + (c.toNat - 48)) :=
      digitsVal_digit_cons c cs x hc.1 hc.2
    rw [hv] at hle ⊢
    have hmono : x * 10 + (c.toNat - 48) ≤ digitsVal 10 cs (x * 10 + (c.toNat - 48)) :=
      digitsVal_mono 10 (by decide) cs _
    simp only [List.cons_append, leadingFractionLoop]
    rw [if_neg (by omega), if_neg (by decide), if_neg (by omega),
      if_neg (by omega)]
    simp only [List.append_eq]
    rw [ih rest _ (scale * 10) (fun d hd => hds d (by simp [hd])) hrest hle]
    rw [List.length_cons, pow_succ]
    ring_nf

theorem fmtFracLoop_spec : ∀ (p v : Nat) (print : Bool) (acc : List Char),
    ∃ ds, fmtFracLoop v p print acc =
        (ds ++ acc, v / 10 ^ p, print || decide (v % 10 ^ p ≠ 0)) ∧
      DigitChars ds ∧ ds.length ≤ p ∧
      ((print || decide (v % 10 ^ p ≠ 0)) = false → ds = []) ∧
      ((print || decide (v % 10 ^ p ≠ 0)) = true →
        digitsVal 10 ds 0 * 10 ^ (p - ds.length) = v % 10 ^ p ∧
        (print = true → ds.length = p)) := by
  intro p
  induction p with
  | zero =>
    intro v print acc
    refine ⟨[], ?_, ?_, ?_, ?_, ?_⟩
    · have h0 : v % 10 ^ 0 = 0 := by omega
      show (acc, v, print) = ([] ++ acc, v / 10 ^ 0, print || decide (v % 10 ^ 0 ≠ 0))
      rw [h0]
      simp
    · intro c hc
      simp at hc
    · simp
    · intro _
      rfl
    · intro _
      refine ⟨by simp [digitsVal]; omega, fun _ => rfl⟩
  | succ p ih =>
    intro v print acc
    have hm10 : v % 10 < 10 := Nat.mod_lt v (by decide)
    have hsplit : v % 10 ^ (p + 1) = v % 10 + 10 * (v / 10 % 10 ^ p) := by
      rw [pow_succ', Nat.mod_mul]
    have hdiv : v / 10 / 10 ^ p = v / 10 ^ (p + 1) := by
      rw [Nat.div_div_eq_div_mul, ← pow_succ']
    by_cases hpr : (print || decide (v % 10 ≠ 0)) = true
    · obtain ⟨ds, heq, hdig, hlen, hfalse, htrue⟩ :=
        ih (v / 10) (print || decide (v % 10 ≠ 0))
          (Char.ofNat (48 + v % 10) :: acc)
      have hchn : (Char.ofNat (48 + v % 10)).toNat = 48 + v % 10 :=
        ofNat_digit_toNat (v % 10) hm10
      have hflag : ((print || decide (v % 10 ≠ 0)) ||
            decide (v / 10 % 10 ^ p ≠ 0)) =
          (print || decide (v % 10 ^ (p + 1) ≠ 0)) := by
        rw [Bool.or_assoc]
        rcases Bool.eq_false_or_eq_true print with hp | hp <;> rw [hp] <;> simp
        rcases eq_or_ne (v % 10) 0 with h1 | h1 <;>
          rcases eq_or_ne (v / 10 % 10 ^ p) 0 with h2 | h2 <;>
          simp [h1, h2] <;> omega
      have hout : (print || decide (v % 10 ^ (p + 1) ≠ 0)) = true := by
        rw [← hflag, hpr]
        rfl
      have htr := htrue (by rw [hpr]; rfl)
      have hlenp : ds.length = p := htr.2 hpr
      refine ⟨ds ++ [Char.ofNat (48 + v % 10)], ?_, ?_, ?_, ?_, ?_⟩
      · rw [fmtFracLoop]
        rw [if_pos hpr, heq, hdiv, hflag]
        simp [List.append_assoc]
      · intro c hc
        rcases List.mem_append.mp hc with h | h
        · exact hdig c h
        · have : c = Char.ofNat (48 + v % 10) := by simpa using h
          subst this
          omega
      · simp
        omega
      · intro h
        rw [h] at hout
        exact absurd hout (by decide)
      · intro _
        constructor
        · rw [digitsVal_append, digitsVal_digit_cons _ _ _ (by omega) (by omega)]
          have hval : digitsVal 10 ds 0 = v / 10 % 10 ^ p := by
            have := htr.1
            rw [hlenp] at this
            simpa using this
          simp only [digitsVal]
          rw [hval, hchn]
          simp only [List.length_append, List.length_cons, List.length_nil,
            hlenp]
          have hexp : p + 1 - (p + 0 + 1) = 0 := by omega
          rw [hexp, pow_zero, Nat.mul_one]
          omega
        · intro _
          simp [hlenp]
    · have hpr2 : print = false ∧ v % 10 = 0 := by
        rcases Bool.eq_false_or_eq_true print with hp | hp
        · rw [hp] at hpr
          simp at hpr
        · rw [hp] at hpr
          simp at hpr
          exact ⟨hp, hpr⟩
      obtain ⟨ds, heq, hdig, hlen, hfalse, htrue⟩ :=
        ih (v / 10) (print || decide (v % 10 ≠ 0)) acc
      have hflag : decide (v / 10 % 10 ^ p ≠ 0) =
          decide (v % 10 ^ (p + 1) ≠ 0) := by
        rw [decide_eq_decide]
        omega
      have hh : (print || decide (v % 10 ≠ 0)) = false := by
        rw [hpr2.1]
        simpa using hpr2.2
      refine ⟨ds, ?_, hdig, by omega, ?_, ?_⟩
      · rw [fmtFracLoop]
        rw [if_neg (by rw [hh]; exact Bool.false_ne_true), heq, hdiv]
        rw [hh, hpr2.1, Bool.false_or, Bool.false_or, hflag]
      · intro h
        apply hfalse
        rw [hh, Bool.false_or, hflag]
        rw [hpr2.1, Bool.false_or] at h
        exact h
      · intro h
        have htr := htrue (by
          rw [hh, Bool.false_or, hflag]
          rw [hpr2.1, Bool.false_or] at h
          exact h)
        refine ⟨?_, ?_⟩
        · have hval := htr.1
          have hstep : (p + 1) - ds.length = (p - ds.length) + 1 := by omega
          rw [hstep, pow_succ, ← mul_assoc, hval]
          omega
        · intro hp
          rw [hpr2.1] at hp
          exact absurd hp (by decide)

theorem fmtFrac_spec (u prec : Nat) :
    (u % 10 ^ prec = 0 ∧ fmtFrac u prec = ([], u / 10 ^ prec)) ∨
    (u % 10 ^ prec ≠ 0 ∧ ∃ ds, fmtFrac u prec = ('.' :: ds, u / 10 ^ prec) ∧
      DigitChars ds ∧ 1 ≤ ds.length ∧ ds.length ≤ prec ∧
      digitsVal 10 ds 0 * 10 ^ (prec - ds.length) = u % 10 ^ prec) := by
  obtain ⟨ds, heq, hdig, hlen, hfalse, htrue⟩ := fmtFracLoop_spec prec u false []
  by_cases h0 : u % 10 ^ prec = 0
  · left
    refine ⟨h0, ?_⟩
    have hds : ds = [] := hfalse (by simp [h0])
    subst hds
    unfold fmtFrac
    rw [heq]
    simp [h0]
  · right
    refine ⟨h0, ?_⟩
    have htr := htrue (by simp [h0])
    refine ⟨ds, ?_, hdig, ?_, hlen, htr.1⟩
    · unfold fmtFrac
      rw [heq]
      simp [h0]
    · rcases ds with _ | ⟨c, cs⟩
      · exfalso
        have := htr.1
        simp [digitsVal] at this
        exact h0 this.symm
      · simp

theorem spanUnit_stop (s : List Char) (hs : StopHead s) :
    spanUnit s = ([], s) := by
  match s with
  | [] => rfl
  | c :: cs =>
    have hc : c = '.' ∨ 48 ≤ c.toNat ∧ c.toNat ≤ 57 := hs
    rw [spanUnit, if_pos hc]

theorem spanUnit_single (c : Char)
    (hc : ¬(c = '.' ∨ 48 ≤ c.toNat ∧ c.toNat ≤ 57))
    (rest : List Char) (hr : StopHead rest) :
    spanUnit (c :: rest) = ([c], rest) := by
  rw [spanUnit, if_neg hc, spanUnit_stop rest hr]

theorem spanUnit_two (c1 c2 : Char)
    (hc1 : ¬(c1 = '.' ∨ 48 ≤ c1.toNat ∧ c1.toNat ≤ 57))
    (hc2 : ¬(c2 = '.' ∨ 48 ≤ c2.toNat ∧ c2.toNat ≤ 57))
    (rest : List Char) (hr : StopHead rest) :
    spanUnit (c1 :: c2 :: rest) = ([c1, c2], rest) := by
  rw [spanUnit, if_neg hc1, spanUnit_single c2 hc2 rest hr]

theorem spanUnit_head_not_stop (s : List Char) (c : Char) (us rest : List Char)
    (h : spanUnit s = (c :: us, rest)) :
    ¬(c = '.' ∨ 48 ≤ c.toNat ∧ c.toNat ≤ 57) := by
  match s with
  | [] =>
    rw [spanUnit] at h
    exact absurd (congrArg Prod.fst h) (by simp)
  | c0 :: cs =>
    rw [spanUnit] at h
    split at h
    · exact absurd (congrArg Prod.fst h) (by simp)
    · rename_i hc0
      have h2 : c0 :: (spanUnit cs).1 = c :: us := congrArg Prod.fst h
      injection h2 with h3 h4
      rw [← h3]
      exact hc0

theorem durFraction_default (s : List Char) (h : ∀ t, s ≠ '.' :: t) :
    durFraction s = (0, 1, s, false) := by
  match s with
  | [] => rfl
  | c :: cs =>
    by_cases hdot : c = '.'
    · subst hdot
      exact absurd rfl (h cs)
    · rw [durFraction.eq_def]
      split
      · rename_i s1t heq
        injection heq with h1 h2
        subst h1
        exact absurd rfl hdot
      · rfl

theorem durChunk_nofrac (a : Nat) (uc rest : List Char) (unit : Nat)
    (hunit : unitValue uc = some unit)
    (hspan : spanUnit (uc ++ rest) = (uc, rest))
    (hpos : 0 < unit)
    (hbound : a * unit ≤ 2 ^ 63) :
    durChunk (formatUintDec a ++ (uc ++ rest)) = some (a * unit, rest) := by
  rcases uc with _ | ⟨u1, us⟩
  · rw [show unitValue ([] : List Char) = none from rfl] at hunit
    cases hunit
  · have hstop : ¬(u1 = '.' ∨ 48 ≤ u1.toNat ∧ u1.toNat ≤ 57) :=
      spanUnit_head_not_stop ((u1 :: us) ++ rest) u1 us rest hspan
    have hnd1 : u1.toNat < 48 ∨ 57 < u1.toNat := by
      by_contra hcon
      push_neg at hcon
      exact hstop (Or.inr ⟨hcon.1, hcon.2⟩)
    obtain ⟨c0, cs0, hfa, hc01, hc02⟩ := formatUintDec_head a
    have hval : digitsVal 10 (formatUintDec a) 0 = a := formatUintDec_val a
    have hX : NonDigitHead ((u1 :: us) ++ rest) := hnd1
    have hli : leadingIntLoop (formatUintDec a ++ ((u1 :: us) ++ rest)) 0 =
        some (a, (u1 :: us) ++ rest) := by
      have hb : digitsVal 10 (formatUintDec a) 0 ≤ 2 ^ 63 := by
        rw [hval]
        calc a ≤ a * unit := Nat.le_mul_of_pos_right a hpos
          _ ≤ 2 ^ 63 := hbound
      have := leadingIntLoop_digits (formatUintDec a) ((u1 :: us) ++ rest) 0
        (formatUintDec_digits a) hX hb
      rw [hval] at this
      exact this
    have hnodot : ∀ t, (u1 :: us) ++ rest ≠ '.' :: t := by
      intro t ht
      rw [List.cons_append] at ht
      injection ht with h1 h2
      exact hstop (Or.inl h1)
    rw [hfa, List.cons_append, durChunk]
    rw [if_neg (not_not_intro (Or.inr ⟨hc01, hc02⟩))]
    have hli2 : leadingInt (c0 :: (cs0 ++ ((u1 :: us) ++ rest))) =
        some (a, (u1 :: us) ++ rest) := by
      unfold leadingInt
      rw [← List.cons_append, ← hfa]
      exact hli
    rw [hli2]
    simp only []
    have hlenne : ((u1 :: us) ++ rest).length ≠
        (c0 :: (cs0 ++ ((u1 :: us) ++ rest))).length := by
      simp only [List.length_cons, List.length_append]
      omega
    rw [if_neg (fun h => h.1 (decide_eq_true hlenne))]
    have hdf : (durFraction ((u1 :: us) ++ rest)).2.2.1 = (u1 :: us) ++ rest := by
      rw [durFraction_default _ hnodot]
    have hdf1 : (durFraction ((u1 :: us) ++ rest)).1 = 0 := by
      rw [durFraction_default _ hnodot]
    rw [hdf, hspan]
    simp only []
    rw [hunit]
    simp only []
    rw [if_neg (not_lt.mpr ((Nat.le_div_iff_mul_le hpos).mpr hbound))]
    rw [hdf1]
    rw [if_neg (lt_irrefl 0)]
    unfold durChunkFinish
    rw [if_neg (not_lt.mpr hbound)]

theorem durChunk_frac (a u prec : Nat) (uc rest : List Char)
    (hprec : prec ≤ 9)
    (hunit : unitValue uc = some (10 ^ prec))
    (hspan : spanUnit (uc ++ rest) = (uc, rest))
    (hbound : a * 10 ^ prec + u % 10 ^ prec ≤ 2 ^ 63) :
    durChunk (formatUintDec a ++ ((fmtFrac u prec).1 ++ (uc ++ rest))) =
      some (a * 10 ^ prec + u % 10 ^ prec, rest) := by
  have hppos : 0 < (10 : Nat) ^ prec := Nat.pos_pow_of_pos prec (by decide)
  rcases fmtFrac_spec u prec with ⟨h0, hfr⟩ | ⟨h0, ds, hfr, hdig, hlen1, hlenp, hvalds⟩
  · have hfr1 : (fmtFrac u prec).1 = [] := by rw [hfr]
    rw [hfr1, List.nil_append, h0]
    have hbound2 : a * 10 ^ prec ≤ 2 ^ 63 := by omega
    rw [Nat.add_zero]
    exact durChunk_nofrac a uc rest (10 ^ prec) hunit hspan hppos hbound2
  · have hfr1 : (fmtFrac u prec).1 = '.' :: ds := by rw [hfr]
    rcases uc with _ | ⟨u1, us⟩
    · rw [show unitValue ([] : List Char) = none from rfl] at hunit
      cases hunit
    · have hstop : ¬(u1 = '.' ∨ 48 ≤ u1.toNat ∧ u1.toNat ≤ 57) :=
        spanUnit_head_not_stop ((u1 :: us) ++ rest) u1 us rest hspan
      have hnd1 : u1.toNat < 48 ∨ 57 < u1.toNat := by
        by_contra hcon
        push_neg at hcon
        exact hstop (Or.inr ⟨hcon.1, hcon.2⟩)
      obtain ⟨c0, cs0, hfa, hc01, hc02⟩ := formatUintDec_head a
      have hval : digitsVal 10 (formatUintDec a) 0 = a := formatUintDec_val a
      have hw : u % 10 ^ prec < 10 ^ 9 := by
        have h1 : u % 10 ^ prec < 10 ^ prec := Nat.mod_lt u hppos
        have h2 : (10 : Nat) ^ prec ≤ 10 ^ 9 :=
          Nat.pow_le_pow_right (by decide) hprec
        omega
      have hfle : digitsVal 10 ds 0 ≤ u % 10 ^ prec := by
        calc digitsVal 10 ds 0 = digitsVal 10 ds 0 * 1 := by ring
          _ ≤ digitsVal 10 ds 0 * 10 ^ (prec - ds.length) :=
            Nat.mul_le_mul_left _ (Nat.pos_pow_of_pos _ (by decide))
          _ = u % 10 ^ prec := hvalds
      have hX : NonDigitHead ('.' :: (ds ++ ((u1 :: us) ++ rest))) := by
        show (46 : Nat) < 48 ∨ (57 : Nat) < 46
        left
        decide
      have hli : leadingIntLoop
          (formatUintDec a ++ ('.' :: (ds ++ ((u1 :: us) ++ rest)))) 0 =
          some (a, '.' :: (ds ++ ((u1 :: us) ++ rest))) := by
        have hb : digitsVal 10 (formatUintDec a) 0 ≤ 2 ^ 63 := by
          rw [hval]
          have : a ≤ a * 10 ^ prec := Nat.le_mul_of_pos_right a hppos
          omega
        have := leadingIntLoop_digits (formatUintDec a)
          ('.' :: (ds ++ ((u1 :: us) ++ rest))) 0
          (formatUintDec_digits a) hX hb
        rw [hval] at this
        exact this
      have hX2nd : NonDigitHead ((u1 :: us) ++ rest) := hnd1
      have hlf : leadingFractionLoop (ds ++ ((u1 :: us) ++ rest)) 0 1 false =
          (digitsVal 10 ds 0, 1 * 10 ^ ds.length, (u1 :: us) ++ rest) :=
        leadingFractionLoop_digits ds ((u1 :: us) ++ rest) 0 1 hdig hX2nd
          (by omega)
      rw [hfr1, hfa]
      rw [List.cons_append, List.cons_append, durChunk]
      rw [if_neg (not_not_intro (Or.inr ⟨hc01, hc02⟩))]
      have hli2 : leadingInt
          (c0 :: (cs0 ++ ('.' :: (ds ++ ((u1 :: us) ++ rest))))) =
          some (a, '.' :: (ds ++ ((u1 :: us) ++ rest))) := by
        unfold leadingInt
        rw [← List.cons_append, ← hfa]
        exact hli
      rw [hli2]
      simp only []
      have hlenne : ('.' :: (ds ++ ((u1 :: us) ++ rest))).length ≠
          (c0 :: (cs0 ++ ('.' :: (ds ++ ((u1 :: us) ++ rest))))).length := by
        simp only [List.length_cons, List.length_append]
        omega
      rw [if_neg (fun h => h.1 (decide_eq_true hlenne))]
      have hdf1 : (durFraction ('.' :: (ds ++ ((u1 :: us) ++ rest)))).1 =
          digitsVal 10 ds 0 := by
        show (leadingFraction (ds ++ ((u1 :: us) ++ rest))).1 = digitsVal 10 ds 0
        unfold leadingFraction
        rw [hlf]
      have hdf21 : (durFraction ('.' :: (ds ++ ((u1 :: us) ++ rest)))).2.1 =
          10 ^ ds.length := by
        show (leadingFraction (ds ++ ((u1 :: us) ++ rest))).2.1 = 10 ^ ds.length
        unfold leadingFraction
        rw [hlf]
        simp
      have hdf221 : (durFraction ('.' :: (ds ++ ((u1 :: us) ++ rest)))).2.2.1 =
          (u1 :: us) ++ rest := by
        show (leadingFraction (ds ++ ((u1 :: us) ++ rest))).2.2 =
          (u1 :: us) ++ rest
        unfold leadingFraction
        rw [hlf]
      rw [hdf221, hspan]
      simp only []
      rw [hunit]
      simp only []
      have hmul : a * 10 ^ prec ≤ 2 ^ 63 := by omega
      rw [if_neg (not_lt.mpr ((Nat.le_div_iff_mul_le hppos).mpr hmul))]
      have hfpos : 0 < digitsVal 10 ds 0 := by
        rcases Nat.eq_zero_or_pos (digitsVal 10 ds 0) with hz | hp
        · exfalso
          rw [hz] at hvalds
          simp at hvalds
          exact h0 hvalds.symm
        · exact hp
      rw [hdf1, if_pos hfpos, hdf21]
      have hfrac : digitsVal 10 ds 0 * 10 ^ prec / 10 ^ ds.length =
          u % 10 ^ prec := by
        have hpow : (10 : Nat) ^ prec = 10 ^ ds.length * 10 ^ (prec - ds.length) := by
          rw [← pow_add]
          congr 1
          omega
        calc digitsVal 10 ds 0 * 10 ^ prec / 10 ^ ds.length
            = 10 ^ ds.length * (digitsVal 10 ds 0 * 10 ^ (prec - ds.length)) /
              10 ^ ds.length := by rw [hpow]; ring_nf
          _ = digitsVal 10 ds 0 * 10 ^ (prec - ds.length) :=
            Nat.mul_div_cancel_left _ (Nat.pos_pow_of_pos _ (by decide))
          _ = u % 10 ^ prec := hvalds
      rw [hfrac]
      unfold durChunkFinish
      rw [if_neg (not_lt.mpr hbound)]

theorem parseDurationLoop_nil (d : Nat) : parseDurationLoop [] d = some d := rfl

theorem parseDurationLoop_chunk (s s3 : List Char) (d v2 : Nat)
    (hch : durChunk s = some (v2, s3)) (hne : s ≠ [])
    (hle : d + v2 ≤ 2 ^ 63) :
    parseDurationLoop s d = parseDurationLoop s3 (d + v2) := by
  rcases s with _ | ⟨c, cs⟩
  · exact absurd rfl hne
  · rw [parseDurationLoop_step]
    simp only []
    rw [hch]
    simp only []
    rw [if_neg (not_lt.mpr hle)]

theorem formatUintDec_append_ne_nil (a : Nat) (X : List Char) :
    formatUintDec a ++ X ≠ [] := by
  intro h
  exact formatUintDec_ne_nil a (List.append_eq_nil.mp h).1

theorem stopHead_format (a : Nat) (X : List Char) :
    StopHead (formatUintDec a ++ X) := by
  obtain ⟨c, cs, hfa, hh1, hh2⟩ := formatUintDec_head a
  rw [hfa]
  show c = '.' ∨ 48 ≤ c.toNat ∧ c.toNat ≤ 57
  exact Or.inr ⟨hh1, hh2⟩

theorem fmtFrac_snd (u prec : Nat) : (fmtFrac u prec).2 = u / 10 ^ prec := by
  rcases fmtFrac_spec u prec with ⟨_, hfr⟩ | ⟨_, ds, hfr, _⟩ <;> rw [hfr]

theorem durationBody_parse (u : Nat) (h1 : 1 ≤ u) (h2 : u ≤ 2 ^ 63) :
    parseDurationLoop (durationBodyGo u) 0 = some u := by
  by_cases hsec : u < second
  · by_cases hns : u < 1000
    · have hbody : durationBodyGo u =
          formatUintDec u ++ (['n', 's'] ++ []) := by
        unfold durationBodyGo
        rw [if_pos hsec, if_neg (by omega), if_pos hns]
        simp only [fmtInt, List.append_assoc, List.append_nil]
      rw [hbody]
      rw [parseDurationLoop_chunk _ _ _ _
        (durChunk_nofrac u ['n', 's'] [] 1 rfl rfl (by decide) (by omega))
        (formatUintDec_append_ne_nil _ _) (by omega)]
      rw [parseDurationLoop_nil]
      congr 1
      omega
    · by_cases hus : u < 1000000
      · have hbody : durationBodyGo u =
            formatUintDec (u / 10 ^ 3) ++
              ((fmtFrac u 3).1 ++ (['µ', 's'] ++ [])) := by
          unfold durationBodyGo
          rw [if_pos hsec, if_neg (by omega), if_neg (by omega), if_pos hus]
          simp only [fmtInt, fmtFrac_snd, List.append_assoc, List.append_nil]
        rw [hbody]
        rw [parseDurationLoop_chunk _ _ _ _
          (durChunk_frac (u / 10 ^ 3) u 3 ['µ', 's'] [] (by decide)
            (by norm_num [unitValue]) rfl (by omega))
          (formatUintDec_append_ne_nil _ _) (by omega)]
        rw [parseDurationLoop_nil]
        congr 1
        omega
      · have hbody : durationBodyGo u =
            formatUintDec (u / 10 ^ 6) ++
              ((fmtFrac u 6).1 ++ (['m', 's'] ++ [])) := by
          unfold durationBodyGo
          rw [if_pos hsec, if_neg (by omega), if_neg (by omega),
            if_neg (by omega)]
          simp only [fmtInt, fmtFrac_snd, List.append_assoc, List.append_nil]
        rw [hbody]
        rw [parseDurationLoop_chunk _ _ _ _
          (durChunk_frac (u / 10 ^ 6) u 6 ['m', 's'] [] (by decide)
            (by norm_num [unitValue]) rfl (by omega))
          (formatUintDec_append_ne_nil _ _) (by omega)]
        rw [parseDurationLoop_nil]
        congr 1
        omega
  · have hsec2 : 1000000000 ≤ u := by
      unfold second at hsec
      omega
    by_cases hmin : u / 10 ^ 9 / 60 = 0
    · have hbody : durationBodyGo u =
          formatUintDec (u / 10 ^ 9 % 60) ++
            ((fmtFrac u 9).1 ++ (['s'] ++ [])) := by
        unfold durationBodyGo
        rw [if_neg hsec]
        simp only [fmtInt, fmtFrac_snd, List.append_assoc, List.append_nil]
        rw [if_pos hmin]
      rw [hbody]
      rw [parseDurationLoop_chunk _ _ _ _
        (durChunk_frac (u / 10 ^ 9 % 60) u 9 ['s'] [] (by decide)
          (by norm_num [unitValue]) rfl (by omega))
        (formatUintDec_append_ne_nil _ _) (by omega)]
      rw [parseDurationLoop_nil]
      congr 1
      omega
    · by_cases hhr : u / 10 ^ 9 / 3600 = 0
      · have hbody : durationBodyGo u =
            formatUintDec (u / 10 ^ 9 / 60 % 60) ++
              (['m'] ++ (formatUintDec (u / 10 ^ 9 % 60) ++
                ((fmtFrac u 9).1 ++ (['s'] ++ [])))) := by
          unfold durationBodyGo
          rw [if_neg hsec]
          simp only [fmtInt, fmtFrac_snd, List.append_assoc, List.append_nil,
            List.cons_append, List.nil_append]
          rw [if_neg hmin, if_pos hhr]
        rw [hbody]
        rw [parseDurationLoop_chunk _ _ _ _
          (durChunk_nofrac (u / 10 ^ 9 / 60 % 60) ['m']
            (formatUintDec (u / 10 ^ 9 % 60) ++
              ((fmtFrac u 9).1 ++ (['s'] ++ []))) 60000000000 rfl
            (spanUnit_single 'm' (by decide)
              (formatUintDec (u / 10 ^ 9 % 60) ++
                ((fmtFrac u 9).1 ++ (['s'] ++ [])))
              (stopHead_format (u / 10 ^ 9 % 60)
                ((fmtFrac u 9).1 ++ (['s'] ++ []))))
            (by decide) (by omega))
          (formatUintDec_append_ne_nil _ _) (by omega)]
        rw [parseDurationLoop_chunk _ _ _ _
          (durChunk_frac (u / 10 ^ 9 % 60) u 9 ['s'] [] (by decide)
            (by norm_num [unitValue]) rfl (by omega))
          (formatUintDec_append_ne_nil _ _) (by omega)]
        rw [parseDurationLoop_nil]
        congr 1
        omega
      · have hbody : durationBodyGo u =
            formatUintDec (u / 10 ^ 9 / 3600) ++
              (['h'] ++ (formatUintDec (u / 10 ^ 9 / 60 % 60) ++
                (['m'] ++ (formatUintDec (u / 10 ^ 9 % 60) ++
                  ((fmtFrac u 9).1 ++ (['s'] ++ [])))))) := by
          unfold durationBodyGo
          rw [if_neg hsec]
          simp only [fmtInt, fmtFrac_snd, List.append_assoc, List.append_nil,
            List.cons_append, List.nil_append]
          rw [if_neg hmin, if_neg hhr]
        rw [hbody]
        rw [parseDurationLoop_chunk _ _ _ _
          (durChunk_nofrac (u / 10 ^ 9 / 3600) ['h']
            (formatUintDec (u / 10 ^ 9 / 60 % 60) ++
              (['m'] ++ (formatUintDec (u / 10 ^ 9 % 60) ++
                ((fmtFrac u 9).1 ++ (['s'] ++ []))))) 3600000000000 rfl
            (spanUnit_single 'h' (by decide)
              (formatUintDec (u / 10 ^ 9 / 60 % 60) ++
                (['m'] ++ (formatUintDec (u / 10 ^ 9 % 60) ++
                  ((fmtFrac u 9).1 ++ (['s'] ++ [])))))
              (stopHead_format (u / 10 ^ 9 / 60 % 60)
                (['m'] ++ (formatUintDec (u / 10 ^ 9 % 60) ++
                  ((fmtFrac u 9).1 ++ (['s'] ++ []))))))
            (by decide) (by omega))
          (formatUintDec_append_ne_nil _ _) (by omega)]
        rw [parseDurationLoop_chunk _ _ _ _
          (durChunk_nofrac (u / 10 ^ 9 / 60 % 60) ['m']
            (formatUintDec (u / 10 ^ 9 % 60) ++
              ((fmtFrac u 9).1 ++ (['s'] ++ []))) 60000000000 rfl
            (spanUnit_single 'm' (by decide)
              (formatUintDec (u / 10 ^ 9 % 60) ++
                ((fmtFrac u 9).1 ++ (['s'] ++ [])))
              (stopHead_format (u / 10 ^ 9 % 60)
                ((fmtFrac u 9).1 ++ (['s'] ++ []))))
            (by decide) (by omega))
          (formatUintDec_append_ne_nil _ _) (by omega)]
        rw [parseDurationLoop_chunk _ _ _ _
          (durChunk_frac (u / 10 ^ 9 % 60) u 9 ['s'] [] (by decide)
            (by norm_num [unitValue]) rfl (by omega))
          (formatUintDec_append_ne_nil _ _) (by omega)]
        rw [parseDurationLoop_nil]
        congr 1
        omega

theorem durationBodyGo_two_le (u : Nat) : 2 ≤ (durationBodyGo u).length := by
  have hf : ∀ a : Nat, 1 ≤ (formatUintDec a).length := fun a =>
    List.length_pos.mpr (formatUintDec_ne_nil a)
  simp only [durationBodyGo, fmtInt]
  split
  · split
    · decide
    · split
      · have := hf u
        simp only [List.length_append, List.length_cons, List.length_nil]
        omega
      · split
        · have := hf (fmtFrac u 3).2
          simp only [List.length_append, List.length_cons, List.length_nil]
          omega
        · have := hf (fmtFrac u 6).2
          simp only [List.length_append, List.length_cons, List.length_nil]
          omega
  · split
    · have := hf ((fmtFrac u 9).2 % 60)
      simp only [List.length_append, List.length_cons, List.length_nil]
      omega
    · split
      · have := hf ((fmtFrac u 9).2 / 60 % 60)
        simp only [List.length_append, List.length_cons, List.length_nil]
        omega
      · have := hf ((fmtFrac u 9).2 / 3600)
        simp only [List.length_append, List.length_cons, List.length_nil]
        omega

theorem durationBodyGo_head (u : Nat) (h1 : 1 ≤ u) :
    ∃ c cs, durationBodyGo u = c :: cs ∧ 48 ≤ c.toNat ∧ c.toNat ≤ 57 := by
  have hcons : ∀ (a : Nat) (X : List Char), ∃ c cs,
      formatUintDec a ++ X = c :: cs ∧ 48 ≤ c.toNat ∧ c.toNat ≤ 57 := by
    intro a X
    obtain ⟨c, cs, hfa, hh1, hh2⟩ := formatUintDec_head a
    exact ⟨c, cs ++ X, by rw [hfa]; rfl, hh1, hh2⟩
  simp only [durationBodyGo, fmtInt]
  split
  · split
    · rename_i h0
      omega
    · split
      · exact hcons u _
      · split
        · rw [List.append_assoc]
          exact hcons (fmtFrac u 3).2 _
        · rw [List.append_assoc]
          exact hcons (fmtFrac u 6).2 _
  · split
    · rw [List.append_assoc]
      exact hcons ((fmtFrac u 9).2 % 60) _
    · split
      · exact hcons ((fmtFrac u 9).2 / 60 % 60) _
      · exact hcons ((fmtFrac u 9).2 / 3600) _

theorem durStripSign_other (c : Char) (rest : List Char)
    (hc1 : c ≠ '-') (hc2 : c ≠ '+') :
    durStripSign (c :: rest) = (false, c :: rest) := by
  rw [durStripSign.eq_def]
  split
  · rename_i heq
    injection heq with e1 e2
    exact absurd e1 hc1
  · rename_i heq
    injection heq with e1 e2
    exact absurd e1 hc2
  · rfl

theorem parseDurationGo_neg (body : List Char) (dd : Nat)
    (hne1 : body ≠ ['0']) (hne2 : body ≠ [])
    (hd : parseDurationLoop body 0 = some dd) :
    parseDurationGo ('-' :: body) = some (-(dd : Int)) := by
  show (if body = ['0'] then some 0
        else if body = [] then none
        else
          match parseDurationLoop body 0 with
          | none => none
          | some d =>
            if (true : Bool) then some (-(d : Int))
            else if 2 ^ 63 - 1 < d then none
            else some (d : Int)) = some (-(dd : Int))
  rw [if_neg hne1, if_neg hne2, hd]
  rfl

theorem parseDurationGo_other (c : Char) (rest : List Char) (dd : Nat)
    (hc1 : c ≠ '-') (hc2 : c ≠ '+')
    (hne1 : c :: rest ≠ ['0'])
    (hd : parseDurationLoop (c :: rest) 0 = some dd)
    (hlt : dd ≤ 2 ^ 63 - 1) :
    parseDurationGo (c :: rest) = some (dd : Int) := by
  unfold parseDurationGo
  rw [durStripSign_other c rest hc1 hc2]
  show (if (c :: rest : List Char) = ['0'] then some 0
        else if (c :: rest : List Char) = [] then none
        else
          match parseDurationLoop (c :: rest) 0 with
          | none => none
          | some d =>
            if (false : Bool) then some (-(d : Int))
            else if 2 ^ 63 - 1 < d then none
            else some (d : Int)) = some (dd : Int)
  rw [if_neg hne1, if_neg (by simp), hd]
  show (if 2 ^ 63 - 1 < dd then none else some (dd : Int)) = some (dd : Int)
  rw [if_neg (not_lt.mpr hlt)]

theorem parseDurationGo_roundtrip (d : Int) (hlo : -(2 ^ 63) ≤ d)
    (hhi : d ≤ 2 ^ 63 - 1) :
    parseDurationGo (durationStringGo d).data = some d := by
  rcases lt_trichotomy d 0 with hneg | hzero | hpos
  · have hu1 : 1 ≤ d.natAbs := by omega
    have hu2 : d.natAbs ≤ 2 ^ 63 := by omega
    have hds : (durationStringGo d).data = '-' :: durationBodyGo d.natAbs := by
      unfold durationStringGo
      rw [if_pos hneg]
    rw [hds]
    have hlen := durationBodyGo_two_le d.natAbs
    rw [parseDurationGo_neg _ d.natAbs
      (by intro h; rw [h] at hlen; simp at hlen)
      (by intro h; rw [h] at hlen; simp at hlen)
      (durationBody_parse d.natAbs hu1 hu2)]
    congr 1
    omega
  · subst hzero
    decide
  · have hu1 : 1 ≤ d.natAbs := by omega
    have hu2 : d.natAbs ≤ 2 ^ 63 - 1 := by omega
    have hds : (durationStringGo d).data = durationBodyGo d.natAbs := by
      unfold durationStringGo
      rw [if_neg (by omega)]
    rw [hds]
    obtain ⟨c, cs, hb, hbc1, hbc2⟩ := durationBodyGo_head d.natAbs hu1
    have hlen := durationBodyGo_two_le d.natAbs
    rw [hb]
    rw [parseDurationGo_other c cs d.natAbs
      (by intro h; rw [h] at hbc1; exact absurd hbc1 (by decide))
      (by intro h; rw [h] at hbc1; exact absurd hbc1 (by decide))
      (by intro h; rw [hb, h] at hlen; simp at hlen)
      (by rw [← hb]; exact durationBody_parse d.natAbs hu1 (by omega))
      hu2]
    congr 1
    omega

theorem stripSign_other (c : Char) (rest : List Char)
    (hc1 : c ≠ '+') (hc2 : c ≠ '-') :
    stripSign (c :: rest) = (false, c :: rest) := by
  rw [stripSign.eq_def]
  split
  · rename_i heq
    injection heq with e1 e2
    exact absurd e1 hc1
  · rename_i heq
    injection heq with e1 e2
    exact absurd e1 hc2
  · rfl

theorem formatIntDec_roundtrip (i : Int) (hlo : -(2 ^ 63) ≤ i)
    (hhi : i ≤ 2 ^ 63 - 1) :
    parseIntGo 64 (formatIntDec i) = (i, none) := by
  by_cases hneg : i < 0
  · have hf : formatIntDec i = '-' :: formatUintDec i.natAbs := by
      unfold formatIntDec
      rw [if_pos hneg]
    have hss : stripSign (formatIntDec i) = (true, formatUintDec i.natAbs) := by
      rw [hf]
      rfl
    have hne : formatIntDec i ≠ [] := by
      rw [hf]
      simp
    have hq : parseUintGo 64 (formatUintDec i.natAbs) = (i.natAbs, none) :=
      formatUintDec_roundtrip i.natAbs (by omega)
    unfold parseIntGo
    rw [if_neg hne]
    simp only [hss, hq]
    rw [if_neg (by simp)]
    rw [if_neg (by simp; omega)]
    have hval : -((i.natAbs : Nat) : Int) = i := by omega
    simp [hval, abs_of_nonpos (le_of_lt hneg)]
  · have hf : formatIntDec i = formatUintDec i.toNat := by
      unfold formatIntDec
      rw [if_neg hneg]
    obtain ⟨c, cs, hfc, hd1, hd2⟩ := formatUintDec_head i.toNat
    have hss : stripSign (formatIntDec i) = (false, formatUintDec i.toNat) := by
      rw [hf, hfc]
      exact stripSign_other c cs
        (by intro h; rw [h] at hd1; exact absurd hd1 (by decide))
        (by intro h; rw [h] at hd1; exact absurd hd1 (by decide))
    have hne : formatIntDec i ≠ [] := by
      rw [hf]
      exact formatUintDec_ne_nil _
    have hq : parseUintGo 64 (formatUintDec i.toNat) = (i.toNat, none) :=
      formatUintDec_roundtrip i.toNat (by omega)
    unfold parseIntGo
    rw [if_neg hne]
    simp only [hss, hq]
    rw [if_neg (by simp; omega)]
    rw [if_neg (by simp)]
    simp only [Bool.false_eq_true, if_false]
    have hval : ((i.toNat : Nat) : Int) = i := by omega
    rw [hval]

theorem parseDurationLoopF_le : ∀ (f : Nat) (s : List Char) (d : Nat),
    d ≤ 2 ^ 63 → ∀ r, parseDurationLoopF f s d = some r → r ≤ 2 ^ 63 := by
  intro f
  induction f with
  | zero =>
    intro s d hd r h
    match s with
    | [] =>
      injection h with h1
      omega
    | c :: cs => simp [parseDurationLoopF] at h
  | succ f ih =>
    intro s d hd r h
    match s with
    | [] =>
      injection h with h1
      omega
    | c :: cs =>
      rw [parseDurationLoopF] at h
      match hch : durChunk (c :: cs) with
      | none =>
        rw [hch] at h
        simp at h
      | some (v2, s3) =>
        rw [hch] at h
        simp only [] at h
        split at h
        · simp at h
        · rename_i hle
          exact ih s3 (d + v2) (by omega) r h

theorem parseDurationGo_bounds (s : List Char) (r : Int)
    (h : parseDurationGo s = some r) :
    -(2 ^ 63) ≤ r ∧ r ≤ 2 ^ 63 - 1 := by
  unfold parseDurationGo at h
  simp only [] at h
  split at h
  · injection h with h1
    omega
  · split at h
    · cases h
    · split at h
      · cases h
      · rename_i dd heq
        have hdd : dd ≤ 2 ^ 63 :=
          parseDurationLoopF_le _ _ 0 (by omega) dd heq
        split at h
        · injection h with h1
          omega
        · split at h
          · cases h
          · injection h with h1
            omega

/-- Claim C7, counterexample: for the `TextVar` kind the `Set`/`String`
round trip fails for a legal caller-supplied marshaler pair — `Set "a"`
succeeds and stores `"a"`, `String` renders `""`, and re-`Set`ting the
rendered text stores `""`, a different stored value. -/
theorem claim7_cex :
    valSet (.text "" lossyTextCallbacks) "a" =
      (.text "a" lossyTextCallbacks, none) ∧
    valString (.text "a" lossyTextCallbacks) = "" ∧
    valSet (.text "a" lossyTextCallbacks)
        (valString (.text "a" lossyTextCallbacks)) =
      (.text "" lossyTextCallbacks, none) ∧
    Val.text "" lossyTextCallbacks ≠ Val.text "a" lossyTextCallbacks := by
  refine ⟨rfl, rfl, rfl, ?_⟩
  intro h
  injection h with h1 h2
  exact absurd h1 (by decide)

/-- Claim C7 (amended): the `Set`/`String`/`Set` round trip does hold for
every strconv-backed kind — bool, int, int64, uint, uint64, string and
duration re-parse their rendered value to the same stored value whenever the
first `Set` succeeded — and for float64 it holds whenever the parse/render
pair satisfies the shortest-rendering contract of `strconv`
(`ParseFloat(FormatFloat(v, 'g', -1, 64), 64) = v`); the spec's duration
example is confirmed: `Set "1h30m0s"` stores 5400000000000 ns and renders
back to `"1h30m0s"`. (It fails for `TextVar` in general, see the
counterexample.) -/
theorem claim7_amended :
    (∀ (t : String) (b : Bool) (v1 : Val),
      valSet (.bool b) t = (v1, none) →
      valSet v1 (valString v1) = (v1, none)) ∧
    (∀ (t : String) (n : Int) (v1 : Val),
      valSet (.int n) t = (v1, none) →
      valSet v1 (valString v1) = (v1, none)) ∧
    (∀ (t : String) (n : Int) (v1 : Val),
      valSet (.int64 n) t = (v1, none) →
      valSet v1 (valString v1) = (v1, none)) ∧
    (∀ (t : String) (n : Nat) (v1 : Val),
      valSet (.uint n) t = (v1, none) →
      valSet v1 (valString v1) = (v1, none)) ∧
    (∀ (t : String) (n : Nat) (v1 : Val),
      valSet (.uint64 n) t = (v1, none) →
      valSet v1 (valString v1) = (v1, none)) ∧
    (∀ (t s0 : String) (v1 : Val),
      valSet (.str s0) t = (v1, none) →
      valSet v1 (valString v1) = (v1, none)) ∧
    (∀ (t : String) (n : Int) (v1 : Val),
      valSet (.duration n) t = (v1, none) →
      valSet v1 (valString v1) = (v1, none)) ∧
    (∀ (α : Type) (parse : String → α × Option NumErr) (render : α → String),
      (∀ v : α, parse (render v) = (v, none)) →
      ∀ (t : String) (cell cell2 v1 : α),
        float64ValueSet (parse t) cell = (v1, none) →
        float64ValueSet (parse (render v1)) cell2 = (v1, none)) ∧
    durationValueSet "1h30m0s" 0 = (5400000000000, none) ∧
    durationStringGo 5400000000000 = "1h30m0s" := by
  refine ⟨?_, ?_, ?_, ?_, ?_, ?_, ?_, ?_, ?_, ?_⟩
  · intro t b v1 h
    unfold valSet at h
    simp only [] at h
    injection h with h1 h2
    subst h1
    cases hb : (boolValueSet t b).1
    · rfl
    · rfl
  · intro t n v1 h
    unfold valSet at h
    simp only [] at h
    injection h with h1 h2
    subst h1
    unfold intValueSet at h2
    simp only [] at h2
    unfold intSize at h2
    have hnone : (parseIntGo 64 t.data).2 = none := Option.map_eq_none'.mp h2
    have hb := parseIntGo_ok_bounds t.data hnone
    unfold valSet valString intValueSet intSize
    simp only []
    rw [formatIntDec_roundtrip _ hb.1 hb.2]
    rfl
  · intro t n v1 h
    unfold valSet at h
    simp only [] at h
    injection h with h1 h2
    subst h1
    unfold int64ValueSet at h2
    simp only [] at h2
    have hnone : (parseIntGo 64 t.data).2 = none := Option.map_eq_none'.mp h2
    have hb := parseIntGo_ok_bounds t.data hnone
    unfold valSet valString int64ValueSet
    simp only []
    rw [formatIntDec_roundtrip _ hb.1 hb.2]
    rfl
  · intro t n v1 h
    unfold valSet at h
    simp only [] at h
    injection h with h1 h2
    subst h1
    unfold uintValueSet at h2
    simp only [] at h2
    unfold intSize at h2
    have hnone : (parseUintGo 64 t.data).2 = none := Option.map_eq_none'.mp h2
    have hb := parseUintGo_ok_le 64 t.data hnone
    unfold valSet valString uintValueSet intSize
    simp only []
    rw [formatUintDec_roundtrip _ hb]
    rfl
  · intro t n v1 h
    unfold valSet at h
    simp only [] at h
    injection h with h1 h2
    subst h1
    unfold uint64ValueSet at h2
    simp only [] at h2
    have hnone : (parseUintGo 64 t.data).2 = none := Option.map_eq_none'.mp h2
    have hb := parseUintGo_ok_le 64 t.data hnone
    unfold valSet valString uint64ValueSet
    simp only []
    rw [formatUintDec_roundtrip _ hb]
    rfl
  · intro t s0 v1 h
    unfold valSet at h
    simp only [] at h
    injection h with h1 h2
    subst h1
    rfl
  · intro t n v1 h
    unfold valSet at h
    simp only [] at h
    injection h with h1 h2
    subst h1
    rcases hpd : parseDurationGo t.data with _ | dd
    · exfalso
      unfold durationValueSet at h2
      rw [hpd] at h2
      simp at h2
    · have hstored : durationValueSet t n = (dd, none) := by
        unfold durationValueSet
        rw [hpd]
      have hbnd := parseDurationGo_bounds t.data dd hpd
      have hrt := parseDurationGo_roundtrip dd hbnd.1 hbnd.2
      rw [hstored]
      unfold valSet valString durationValueSet
      simp only []
      rw [hrt]
  · intro α parse render hinv t cell cell2 v1 h
    unfold float64ValueSet at h ⊢
    rcases hp : parse t with ⟨v, e⟩
    rw [hp] at h
    cases e
    · simp only [] at h
      injection h with h1 h2
      subst h1
      rw [hinv v]
    · simp at h
  · decide
  · decide

/-- Claim C7, witness: the amended round trip at concrete inputs — an int64
variable set to `"42"` re-parses its rendering back to 42, and a duration
variable set to `"1h30m0s"` re-parses its rendering back to 5400000000000
nanoseconds. -/
theorem claim7_witness :
    valSet (.int64 42) (valString (.int64 42)) = (.int64 42, none) ∧
    valSet (.duration 5400000000000) (valString (.duration 5400000000000)) =
      (.duration 5400000000000, none) := by
  constructor
  · exact claim7_amended.2.2.1 "42" 0 (.int64 42) rfl
  · exact claim7_amended.2.2.2.2.2.2.1 "1h30m0s" 0 (.duration 5400000000000)
      rfl

end EnvModel
